import Mathlib

/-!
Verification development for the session-siphon repository.

The file shallowly embeds the core of the repository in Lean:

* the canonical message model (`src/session_siphon/models.py`) together with
  the message-id and content-hash derivations
  (`src/session_siphon/processor/parsers/base.py`), backed by an executable
  SHA-256 implementation;
* the JSONL parsers for Claude Code and Codex and the whole-file JSON parsers
  for Antigravity and Gemini (`src/session_siphon/processor/parsers/`);
* the collector's change detection and incremental copying
  (`src/session_siphon/collector/copier.py`), its SQLite-backed file-state
  table (`src/session_siphon/collector/state.py`) and the per-file sync driver
  (`src/session_siphon/collector/daemon.py`);
* the processor's per-file pipeline and conversation aggregation
  (`src/session_siphon/processor/daemon.py`) and its state table
  (`src/session_siphon/processor/state.py`).

Files are modelled as byte lists; Python's `json.loads`, `str.strip`,
`datetime.fromisoformat` and UTF-8 line decoding are library calls and enter
the model either as explicit executable definitions (UTF-8 encoding, SHA-256)
or as parameters of the parsing functions (JSON decoding of a raw line,
ISO-8601 timestamp parsing), so every theorem below quantifies over the
behaviour of those library calls unless it instantiates them concretely.
-/

namespace SessionSiphon

/-! ### SHA-256 (models Python's `hashlib.sha256(...).hexdigest()`)

Executable SHA-256 over byte lists, word state kept as eight `Nat`s reduced
mod `2 ^ 32`.  Validated below against the standard test vectors for the
empty string and `"abc"`. -/

/-- Working state of SHA-256: eight 32-bit words as `Nat`s. -/
structure Sha8 where
  a : Nat
  b : Nat
  c : Nat
  d : Nat
  e : Nat
  f : Nat
  g : Nat
  h : Nat

def M32 : Nat := 4294967296

def add32 (x y : Nat) : Nat := (x + y) % M32

def rotr32 (n x : Nat) : Nat := (x >>> n) + ((x % (2 ^ n)) <<< (32 - n))

def xor3 (x y z : Nat) : Nat := Nat.xor (Nat.xor x y) z

def bsig0 (x : Nat) : Nat := xor3 (rotr32 2 x) (rotr32 13 x) (rotr32 22 x)
def bsig1 (x : Nat) : Nat := xor3 (rotr32 6 x) (rotr32 11 x) (rotr32 25 x)
def ssig0 (x : Nat) : Nat := xor3 (rotr32 7 x) (rotr32 18 x) (x >>> 3)
def ssig1 (x : Nat) : Nat := xor3 (rotr32 17 x) (rotr32 19 x) (x >>> 10)

def chF (x y z : Nat) : Nat := Nat.xor (Nat.land x y) (Nat.land (M32 - 1 - x) z)
def majF (x y z : Nat) : Nat := xor3 (Nat.land x y) (Nat.land x z) (Nat.land y z)

def shaK : List Nat :=
  [1116352408, 1899447441, 3049323471, 3921009573, 961987163, 1508970993, 2453635748, 2870763221,
   3624381080, 310598401, 607225278, 1426881987, 1925078388, 2162078206, 2614888103, 3248222580,
   3835390401, 4022224774, 264347078, 604807628, 770255983, 1249150122, 1555081692, 1996064986,
   2554220882, 2821834349, 2952996808, 3210313671, 3336571891, 3584528711, 113926993, 338241895,
   666307205, 773529912, 1294757372, 1396182291, 1695183700, 1986661051, 2177026350, 2456956037,
   2730485921, 2820302411, 3259730800, 3345764771, 3516065817, 3600352804, 4094571909, 275423344,
   430227734, 506948616, 659060556, 883997877, 958139571, 1322822218, 1537002063, 1747873779,
   1955562222, 2024104815, 2227730452, 2361852424, 2428436474, 2756734187, 3204031479, 3329325298]

/-- Extend the sixteen block words to sixty-four; `rw` holds the schedule so
far, most recent word first. -/
def schedExt (rw : List Nat) : Nat → List Nat
  | 0 => rw
  | n + 1 =>
    let w2 := rw.getD 1 0
    let w7 := rw.getD 6 0
    let w15 := rw.getD 14 0
    let w16 := rw.getD 15 0
    let nw := (ssig1 w2 + w7 + ssig0 w15 + w16) % M32
    schedExt (nw :: rw) n

def schedule (ws : List Nat) : List Nat := (schedExt ws.reverse 48).reverse

def roundStep (s : Sha8) (kw : Nat × Nat) : Sha8 :=
  let t1 := (s.h + bsig1 s.e + chF s.e s.f s.g + kw.1 + kw.2) % M32
  let t2 := (bsig0 s.a + majF s.a s.b s.c) % M32
  ⟨(t1 + t2) % M32, s.a, s.b, s.c, (s.d + t1) % M32, s.e, s.f, s.g⟩

def compress (s : Sha8) (block : List Nat) : Sha8 :=
  let w := schedule block
  let t := (shaK.zip w).foldl roundStep s
  ⟨add32 s.a t.a, add32 s.b t.b, add32 s.c t.c, add32 s.d t.d,
   add32 s.e t.e, add32 s.f t.f, add32 s.g t.g, add32 s.h t.h⟩

def initSha : Sha8 :=
  ⟨1779033703, 3144134277, 1013904242, 2773480762, 1359893119, 2600822924, 528734635, 1541459225⟩

def toWords : List Nat → List Nat
  | a :: b :: c :: d :: rest => (a * 16777216 + b * 65536 + c * 256 + d) :: toWords rest
  | _ => []

/-- Split into 64-byte blocks; fuel-based so the kernel can evaluate it. -/
def chunksGo : Nat → List Nat → List (List Nat)
  | 0, _ => []
  | _, [] => []
  | fuel + 1, x :: xs => ((x :: xs).take 64) :: chunksGo fuel ((x :: xs).drop 64)

def chunks (l : List Nat) : List (List Nat) := chunksGo l.length l

def lenBytes8 (n : Nat) : List Nat :=
  [n >>> 56 % 256, n >>> 48 % 256, n >>> 40 % 256, n >>> 32 % 256,
   n >>> 24 % 256, n >>> 16 % 256, n >>> 8 % 256, n % 256]

def padMsg (bs : List Nat) : List Nat :=
  let l := bs.length
  let k := (119 - l % 64) % 64
  bs ++ [128] ++ List.replicate k 0 ++ lenBytes8 (8 * l)

def sha256Words (bs : List Nat) : Sha8 :=
  ((chunks (padMsg bs)).map toWords).foldl compress initSha

def word4 (w : Nat) : List Nat := [w >>> 24 % 256, w >>> 16 % 256, w >>> 8 % 256, w % 256]

def digestBytes (s : Sha8) : List Nat :=
  word4 s.a ++ word4 s.b ++ word4 s.c ++ word4 s.d ++ word4 s.e ++ word4 s.f ++ word4 s.g ++ word4 s.h

def hexDigit (n : Nat) : Char :=
  if n < 10 then Char.ofNat (48 + n) else Char.ofNat (87 + n)

def hexByte (b : Nat) : List Char := [hexDigit (b / 16), hexDigit (b % 16)]

/-- Hex digest of SHA-256 of a byte list, as `hashlib.sha256(bs).hexdigest()`. -/
def sha256hexBytes (bs : List Nat) : String :=
  String.mk ((digestBytes (sha256Words bs)).flatMap hexByte)

set_option maxRecDepth 100000 in
example : sha256hexBytes [] = "e3b0c44298fc1c149afbf4c8996fb92427ae41e4649b934ca495991b7852b855" := by
  decide

set_option maxRecDepth 100000 in
example : sha256hexBytes [97, 98, 99] = "ba7816bf8f01cfea414140de5dae2223b00361a396177a9cb410ff61f20015ad" := by
  decide

theorem sha256hexBytes_length (bs : List Nat) : (sha256hexBytes bs).length = 64 := by
  simp [sha256hexBytes, digestBytes, word4, hexByte]

/-! ### UTF-8 encoding (models Python's `str.encode()`), content hash, message id -/

/-- UTF-8 encoding of a single code point (Python `str.encode()` per character). -/
def utf8Char (c : Char) : List Nat :=
  let n := c.toNat
  if n < 128 then [n]
  else if n < 2048 then [192 + n / 64, 128 + n % 64]
  else if n < 65536 then [224 + n / 4096, 128 + (n / 64) % 64, 128 + n % 64]
  else [240 + n / 262144, 128 + (n / 4096) % 64, 128 + (n / 64) % 64, 128 + n % 64]

def utf8Encode (s : String) : List Nat := s.data.flatMap utf8Char

/-- Models `content_hash` from `processor/parsers/base.py` and the
`CanonicalMessage.content_hash` property from `models.py`:
`hashlib.sha256(content.encode()).hexdigest()[:16]`. -/
def content_hash (content : String) : String :=
  (sha256hexBytes (utf8Encode content)).take 16

/-- The id format string shared by `generate_message_id` (base.py) and
`CanonicalMessage.id` (models.py), with the content hash passed explicitly. -/
def mkId (source machine_id conversation_id : String) (ts : Int) (hash : String) : String :=
  source ++ ":" ++ machine_id ++ ":" ++ conversation_id ++ ":" ++ toString ts ++ ":" ++ hash

/-- Models `generate_message_id` from `processor/parsers/base.py`. -/
def generate_message_id (source machine_id conversation_id : String) (ts : Int)
    (content : String) : String :=
  mkId source machine_id conversation_id ts (content_hash content)

/-! ### Injectivity of decimal rendering (for the id format string) -/

theorem toDigitsCore_acc (b : Nat) : ∀ (fuel n : Nat) (ds : List Char),
    Nat.toDigitsCore b fuel n ds = Nat.toDigitsCore b fuel n [] ++ ds := by
  intro fuel
  induction fuel with
  | zero => intro n ds; simp [Nat.toDigitsCore]
  | succ f ih =>
    intro n ds
    simp only [Nat.toDigitsCore]
    by_cases h : n / b = 0
    · simp [h]
    · simp only [h, if_false]
      rw [ih (n / b) [(n % b).digitChar], ih (n / b) ((n % b).digitChar :: ds)]
      simp

theorem toDigitsCore_fuel (b : Nat) (hb : 2 ≤ b) : ∀ f1 f2 n : Nat, n < f1 → n < f2 →
    Nat.toDigitsCore b f1 n [] = Nat.toDigitsCore b f2 n [] := by
  intro f1
  induction f1 with
  | zero => intro f2 n h1; omega
  | succ f ih =>
    intro f2 n h1 h2
    cases f2 with
    | zero => omega
    | succ f2' =>
      simp only [Nat.toDigitsCore]
      by_cases h : n / b = 0
      · simp [h]
      · simp only [h, if_false]
        rw [toDigitsCore_acc, toDigitsCore_acc b f2']
        have hn : 0 < n := by
          rcases Nat.eq_zero_or_pos n with h0 | h0
          · exfalso; apply h; simp [h0]
          · exact h0
        have hd : n / b < n := Nat.div_lt_self hn (by omega)
        rw [ih f2' (n / b) (by omega) (by omega)]

theorem toDigits_lt (b n : Nat) (_hb : 2 ≤ b) (h : n < b) :
    Nat.toDigits b n = [n.digitChar] := by
  simp [Nat.toDigits, Nat.toDigitsCore, Nat.div_eq_of_lt h, Nat.mod_eq_of_lt h]

theorem toDigits_ge (b n : Nat) (hb : 2 ≤ b) (h : b ≤ n) :
    Nat.toDigits b n = Nat.toDigits b (n / b) ++ [(n % b).digitChar] := by
  have hd0 : n / b ≠ 0 := by
    have := Nat.div_le_div_right (c := b) h
    simp [Nat.div_self (by omega : 0 < b)] at this
    omega
  have hdlt : n / b < n := Nat.div_lt_self (by omega) (by omega)
  simp only [Nat.toDigits, Nat.toDigitsCore, hd0, if_false]
  rw [toDigitsCore_acc]
  congr 1
  exact toDigitsCore_fuel b hb n (n / b + 1) (n / b) (by omega) (by omega)

theorem toDigits_ne_nil (b n : Nat) (hb : 2 ≤ b) : Nat.toDigits b n ≠ [] := by
  by_cases h : n < b
  · simp [toDigits_lt b n hb h]
  · rw [toDigits_ge b n hb (by omega)]; simp

theorem digitChar_inj_lt10 : ∀ a < 10, ∀ b < 10, Nat.digitChar a = Nat.digitChar b → a = b := by
  decide

theorem toDigits10_inj : ∀ a b : Nat, Nat.toDigits 10 a = Nat.toDigits 10 b → a = b := by
  intro a
  induction a using Nat.strong_induction_on with
  | _ a ih =>
    intro b h
    by_cases ha : a < 10
    · by_cases hb : b < 10
      · rw [toDigits_lt 10 a (by omega) ha, toDigits_lt 10 b (by omega) hb] at h
        simp only [List.cons.injEq, and_true] at h
        exact digitChar_inj_lt10 a ha b hb h
      · exfalso
        rw [toDigits_lt 10 a (by omega) ha, toDigits_ge 10 b (by omega) (by omega)] at h
        have hlen := congrArg List.length h
        simp only [List.length_cons, List.length_append, List.length_nil] at hlen
        have hz : (Nat.toDigits 10 (b / 10)).length = 0 := by omega
        exact toDigits_ne_nil 10 (b / 10) (by omega) (List.length_eq_zero.mp hz)
    · by_cases hb : b < 10
      · exfalso
        rw [toDigits_ge 10 a (by omega) (by omega), toDigits_lt 10 b (by omega) hb] at h
        have hlen := congrArg List.length h
        simp only [List.length_cons, List.length_append, List.length_nil] at hlen
        have hz : (Nat.toDigits 10 (a / 10)).length = 0 := by omega
        exact toDigits_ne_nil 10 (a / 10) (by omega) (List.length_eq_zero.mp hz)
      · rw [toDigits_ge 10 a (by omega) (by omega), toDigits_ge 10 b (by omega) (by omega)] at h
        have hparts := List.append_inj' h (by simp)
        have h1 : a / 10 = b / 10 := ih (a / 10) (Nat.div_lt_self (by omega) (by omega)) (b / 10) hparts.1
        have h2 : a % 10 = b % 10 := by
          have := hparts.2
          simp at this
          exact digitChar_inj_lt10 (a % 10) (Nat.mod_lt a (by omega)) (b % 10) (Nat.mod_lt b (by omega)) this
        omega

theorem natRepr_inj : ∀ a b : Nat, Nat.repr a = Nat.repr b → a = b := by
  intro a b h
  apply toDigits10_inj
  have := congrArg String.data h
  simpa [Nat.repr, List.asString] using this

theorem toDigits10_head_digit (n : Nat) :
    ∃ d, d < 10 ∧ (Nat.toDigits 10 n).head? = some (Nat.digitChar d) := by
  induction n using Nat.strong_induction_on with
  | _ n ih =>
    by_cases h : n < 10
    · exact ⟨n, h, by simp [toDigits_lt 10 n (by omega) h]⟩
    · obtain ⟨d, hd, hh⟩ := ih (n / 10) (Nat.div_lt_self (by omega) (by omega))
      refine ⟨d, hd, ?_⟩
      rw [toDigits_ge 10 n (by omega) (by omega)]
      cases hx : Nat.toDigits 10 (n / 10) with
      | nil => exact absurd hx (toDigits_ne_nil 10 (n / 10) (by omega))
      | cons c cs => rw [hx] at hh; simpa using hh

theorem natRepr_head_ne_dash (n : Nat) : (Nat.repr n).data.head? ≠ some '-' := by
  obtain ⟨d, hd, hh⟩ := toDigits10_head_digit n
  simp only [Nat.repr, List.asString]
  intro hcon
  rw [hh] at hcon
  have : Nat.digitChar d = '-' := by injection hcon
  interval_cases d <;> simp [Nat.digitChar] at this

theorem intToString_inj : ∀ a b : Int, toString a = toString b → a = b := by
  intro a b h
  have h' : Int.repr a = Int.repr b := h
  match a, b with
  | Int.ofNat m, Int.ofNat n =>
    simp only [Int.repr] at h'
    exact congrArg Int.ofNat (natRepr_inj m n h')
  | Int.ofNat m, Int.negSucc n =>
    exfalso
    simp only [Int.repr] at h'
    have := natRepr_head_ne_dash m
    rw [h'] at this
    apply this
    show ("-" ++ Nat.repr (n + 1)).data.head? = some '-'
    have hd : ("-" ++ Nat.repr (n + 1)).data = '-' :: (Nat.repr (n + 1)).data := by
      rw [String.data_append]; rfl
    rw [hd]; rfl
  | Int.negSucc m, Int.ofNat n =>
    exfalso
    simp only [Int.repr] at h'
    have := natRepr_head_ne_dash n
    rw [← h'] at this
    apply this
    show ("-" ++ Nat.repr (m + 1)).data.head? = some '-'
    have hd : ("-" ++ Nat.repr (m + 1)).data = '-' :: (Nat.repr (m + 1)).data := by
      rw [String.data_append]; rfl
    rw [hd]; rfl
  | Int.negSucc m, Int.negSucc n =>
    simp only [Int.repr] at h'
    have hdata := congrArg String.data h'
    simp only [String.data_append] at hdata
    have : (Nat.repr (m+1)).data = (Nat.repr (n+1)).data := by
      have : ("-".data) ++ (Nat.repr (m+1)).data = ("-".data) ++ (Nat.repr (n+1)).data := hdata
      exact List.append_cancel_left this
    have hmn : m = n := by
      have := natRepr_inj (m+1) (n+1) (String.ext this)
      omega
    rw [hmn]



/-! ### JSON values and Python-semantics helpers

`Json` models the values `json.loads` can return (numbers restricted to
integers; no float appears in any claim).  `truthy` models Python truthiness,
`pyOr` the `a or b` operator, `jget` is `dict.get` on an object's key-value
list (JSON objects have unique keys, so first-match lookup is exact). -/

inductive Json where
  | null
  | bool (b : Bool)
  | num (n : Int)
  | str (s : String)
  | arr (xs : List Json)
  | obj (kvs : List (String × Json))

def Json.truthy : Json → Bool
  | .null => false
  | .bool b => b
  | .num n => n != 0
  | .str s => s != ""
  | .arr xs => !xs.isEmpty
  | .obj kvs => !kvs.isEmpty

/-- Python `a or b` on JSON values (`a` if truthy, else `b`). -/
def pyOr (a b : Json) : Json := if a.truthy then a else b

/-- `dict.get(k)` (no default) on an object's entries. -/
def jget (kvs : List (String × Json)) (k : String) : Option Json := kvs.lookup k

/-- `dict.get(k, default)`. -/
def jgetD (kvs : List (String × Json)) (k : String) (d : Json) : Json := (jget kvs k).getD d

/-- Key membership, Python `k in d`. -/
def jhas (kvs : List (String × Json)) (k : String) : Bool := kvs.any (fun kv => kv.1 == k)

/-- Python `v == "s"` for a JSON value against a string literal. -/
def Json.eqStr : Json → String → Bool
  | .str s, t => s == t
  | _, _ => false

/-- Python `str(v)` for scalar values as used inside f-strings; composite
values (whose `repr` rendering the model does not reproduce) yield `none`. -/
def pyStrScalar : Json → Option String
  | .null => some "None"
  | .bool true => some "True"
  | .bool false => some "False"
  | .num n => some (toString n)
  | .str s => some s
  | _ => none

/-- Python exceptions that the parser embeddings can raise.  `unmodelled`
marks inputs on which CPython would not raise but would store a non-string
value into a string-typed `CanonicalMessage` field (or render a composite
value through `repr`); no theorem below depends on such inputs. -/
inductive PyExc where
  | oserror
  | unicode
  | attr
  | typeErr
  | unmodelled
deriving DecidableEq, Repr

/-! ### Paths and file systems

A `PyPath` is the component list of a `pathlib.Path` (POSIX, root dropped);
`name`/`stemStr`/`suffixStr` model the corresponding pathlib properties, and
`pathStr` models `str(path)`. -/

structure PyPath where
  parts : List String
deriving DecidableEq, Repr

def PyPath.name (p : PyPath) : String := (p.parts.getLast?).getD ""

/-- Index of the last dot in a name, if any (pathlib's `name.rfind('.')`). -/
def lastDotIdx (cs : List Char) : Option Nat :=
  ((List.range cs.length).filter (fun i => cs.getD i ' ' == '.')).getLast?

/-- pathlib `suffix`: from the last dot of the final component, unless that
dot is the first or past-the-last character. -/
def pySuffix (name : String) : String :=
  match lastDotIdx name.data with
  | some i => if 0 < i && i + 1 < name.length then String.mk (name.data.drop i) else ""
  | none => ""

/-- pathlib `stem`: the final component without `pySuffix`. -/
def pyStem (name : String) : String :=
  match lastDotIdx name.data with
  | some i => if 0 < i && i + 1 < name.length then String.mk (name.data.take i) else name
  | none => name

def PyPath.suffixStr (p : PyPath) : String := pySuffix p.name

def PyPath.stem (p : PyPath) : String := pyStem p.name

def PyPath.pathStr (p : PyPath) : String := String.intercalate "/" p.parts

/-- pathlib `path.parent.name`. -/
def PyPath.parentName (p : PyPath) : String := (p.parts.dropLast.getLast?).getD ""

/-- `path.relative_to(base)` on component lists (`none` models the
`ValueError` for a path not under `base`). -/
def relTo (p base : List String) : Option (List String) :=
  if base.isPrefixOf p then some (p.drop base.length) else none

/-- Python `str.lower()` (ASCII range, which covers every use below). -/
def strLower (s : String) : String := String.mk (s.data.map Char.toLower)

/-- `str.startswith(t)`. -/
def strStartsWith (s t : String) : Bool := t.data.isPrefixOf s.data

/-- `str.endswith(t)`. -/
def strEndsWith (s t : String) : Bool := t.data.isSuffixOf s.data

/-- Python `str.strip()` for ASCII whitespace. -/
def pyStrip (s : String) : String :=
  String.mk (((s.data.dropWhile Char.isWhitespace).reverse.dropWhile Char.isWhitespace).reverse)

/-- Python `str.split(sep)` for a one-character separator. -/
def splitCharGo (sep : Char) (cur : List Char) : List Char → List String
  | [] => [String.mk cur.reverse]
  | c :: cs =>
    if c == sep then String.mk cur.reverse :: splitCharGo sep [] cs
    else splitCharGo sep (c :: cur) cs

def strSplitChar (s : String) (sep : Char) : List String := splitCharGo sep [] s.data

/-- A file on disk: its bytes and its integer `st_mtime`. -/
structure FileNode where
  bytes : List Nat
  mtime : Int
deriving DecidableEq, Repr

/-- A file system: contents of each existing path. -/
def FS : Type := PyPath → Option FileNode

/-- A destination (outbox) file system, bytes only. -/
def DestFS : Type := PyPath → Option (List Nat)

/-! ### The canonical data model (`models.py`) -/

/-- `CanonicalMessage` from `models.py`.  All string-typed per its dataclass
annotations; parsers whose dynamic behaviour could store a non-string are
modelled with a `PyExc.unmodelled` error at that point instead. -/
structure CanonicalMessage where
  source : String
  machine_id : String
  project : String
  conversation_id : String
  ts : Int
  role : String
  content : String
  raw_path : String
  git_repo : Option String := none
  raw_offset : Option Nat := none
deriving DecidableEq, Repr

/-- The `content_hash` property of `CanonicalMessage`. -/
def CanonicalMessage.contentHash (m : CanonicalMessage) : String := content_hash m.content

/-- The `id` property of `CanonicalMessage`. -/
def CanonicalMessage.msgId (m : CanonicalMessage) : String :=
  mkId m.source m.machine_id m.conversation_id m.ts m.contentHash

/-- `Conversation` from `models.py`. -/
structure Conversation where
  source : String
  machine_id : String
  project : String
  conversation_id : String
  first_ts : Int
  last_ts : Int
  message_count : Nat
  title : String
  preview : String
  git_repo : Option String := none
deriving DecidableEq, Repr


/-! ### JSONL files, library-call parameters, shared timestamp parsing -/

/-- Result of `line.decode("utf-8").strip()` followed by `json.loads` on one
raw line: the line is not valid UTF-8, strips to empty, is not valid JSON, or
decodes to a JSON value. -/
inductive LineRes where
  | undecodable
  | blank
  | badJson
  | entry (j : Json)

/-- The Python library calls the parsers depend on, as parameters: per-line
decoding (see `LineRes`), `datetime.fromisoformat(s).timestamp()` truncated
to an integer (`none` models `ValueError`), and whole-file
`content.decode("utf-8")` + `json.loads` (`none` models either failure). -/
structure PyEnv where
  decodeLine : List Nat → LineRes
  isoTs : String → Option Int
  jsonDecode : List Nat → Option Json

/-- Binary-mode line iteration: split after each newline byte, keeping the
newline in its line; a final fragment without a newline is its own line. -/
def splitLinesGo (acc : List Nat) : List Nat → List (List Nat)
  | [] => if acc.isEmpty then [] else [acc.reverse]
  | b :: bs =>
    if b == 10 then (acc.reverse ++ [10]) :: splitLinesGo [] bs
    else splitLinesGo (b :: acc) bs

def splitLines (bs : List Nat) : List (List Nat) := splitLinesGo [] bs

/-- The `Z`-suffix rewrite done before `datetime.fromisoformat` in every
parser: `timestamp_str[:-1] + "+00:00"`. -/
def zFix (s : String) : String :=
  if strEndsWith s "Z" then String.mk s.data.dropLast ++ "+00:00" else s

/-- The `_parse_timestamp` helper shared (verbatim) by the Claude Code, Codex
and Gemini parsers: falsy values give 0, a non-string truthy value raises
`AttributeError` inside the `try` and is caught (also 0), a string is parsed
after the `Z` rewrite with `ValueError` caught to 0. -/
def parse_timestamp (env : PyEnv) (v : Option Json) : Int :=
  match v with
  | some (.str s) => if s == "" then 0 else (env.isoTs (zFix s)).getD 0
  | _ => 0

/-! ### Claude Code parser (`processor/parsers/claude_code.py`) -/

/-- `ClaudeCodeParser._extract_content`.  A `text` block whose value is
present but not a string is appended as-is in Python and later makes
`"\n".join` raise `TypeError`; `tool_result` content that is not a string
raises `TypeError` at the slice (lists would render, marked `unmodelled`). -/
def claudeExtractContent : Option Json → Except PyExc String
  | none => .ok ""
  | some .null => .ok ""
  | some (.str s) => .ok s
  | some (.arr blocks) => do
    let parts ← claudeBlocks blocks
    return String.intercalate "\n" parts
  | some _ => .ok ""
where
  claudeBlocks : List Json → Except PyExc (List String)
    | [] => .ok []
    | b :: rest => do
      let tail ← claudeBlocks rest
      match b with
      | .obj kvs =>
        let bt := jget kvs "type"
        if bt.any (·.eqStr "text") then
          match jget kvs "text" with
          | none => return "" :: tail
          | some (.str s) => return s :: tail
          | some _ => throw .typeErr
        else if bt.any (·.eqStr "tool_use") then
          match jget kvs "name" with
          | none => return ("[Tool: unknown]") :: tail
          | some v =>
            match pyStrScalar v with
            | some name => return ("[Tool: " ++ name ++ "]") :: tail
            | none => throw .unmodelled
        else if bt.any (·.eqStr "tool_result") then
          let rc := jgetD kvs "content" (.str "")
          if !rc.truthy then return tail
          else
            match rc with
            | .str s => return ("[Tool Result: " ++ s.take 200 ++ "...]") :: tail
            | .arr _ => throw .unmodelled
            | _ => throw .typeErr
        else
          return tail
      | .str s => return s :: tail
      | _ => return tail

/-- Processing of one decoded JSONL entry of a Claude Code file. -/
def claudeEntry (env : PyEnv) (machine stem pathS : String) (lineOff : Nat) (j : Json) :
    Except PyExc (Option CanonicalMessage) :=
  match j with
  | .obj kvs =>
    let typeOk := match jget kvs "type" with
      | some v => v.eqStr "user" || v.eqStr "assistant"
      | none => false
    if !typeOk then .ok none
    else
      match (jget kvs "message").getD (.obj []) with
      | .obj mkvs =>
        match jget mkvs "role" with
        | none => .ok none
        | some rv =>
          if !rv.truthy then .ok none
          else
            match rv with
            | .str role => do
              let content ← claudeExtractContent (jget mkvs "content")
              if content == "" then return none
              else
                let ts := parse_timestamp env (jget kvs "timestamp")
                let project ← match jget kvs "cwd" with
                  | none => pure ""
                  | some (.str s) => pure s
                  | some _ => throw PyExc.unmodelled
                return some ⟨"claude_code", machine, project, stem, ts, role, content,
                              pathS, none, some lineOff⟩
            | _ => .error .unmodelled
      | _ => .error .attr
  | _ => .error .attr

/-- The line loop of `ClaudeCodeParser.parse`; `cur` is `f.tell()` before the
line is read, so `line_offset = cur` and the next position is
`cur + line.length`. -/
def claudeGo (env : PyEnv) (machine stem pathS : String) :
    Nat → List (List Nat) → Except PyExc (List CanonicalMessage)
  | _, [] => .ok []
  | cur, line :: rest =>
    match env.decodeLine line with
    | .undecodable => .error .unicode
    | .blank => claudeGo env machine stem pathS (cur + line.length) rest
    | .badJson => claudeGo env machine stem pathS (cur + line.length) rest
    | .entry j => do
      let m? ← claudeEntry env machine stem pathS cur j
      let ms ← claudeGo env machine stem pathS (cur + line.length) rest
      match m? with
      | some m => return m :: ms
      | none => return ms

/-- `ClaudeCodeParser.parse`: open (raising `OSError` when the path is
missing), seek to `from_offset`, iterate lines, return the messages and
`f.tell()` = `from_offset + length of the remaining bytes`. -/
def claudeCodeParse (env : PyEnv) (fs : FS) (p : PyPath) (machine : String) (fromOff : Nat) :
    Except PyExc (List CanonicalMessage × Nat) :=
  match fs p with
  | none => .error .oserror
  | some node =>
    let rest := node.bytes.drop fromOff
    do
      let msgs ← claudeGo env machine p.stem p.pathStr fromOff (splitLines rest)
      return (msgs, fromOff + rest.length)


/-! ### Codex parser (`processor/parsers/codex.py`) -/

/-- `CodexParser._extract_session_id`. -/
def codexExtractSessionId (filename : String) : String :=
  if strStartsWith filename "rollout-" then
    let rest := filename.drop 8
    let parts := strSplitChar rest '-'
    if 7 ≤ parts.length then String.intercalate "-" (parts.drop 5) else filename
  else filename

/-- `CodexParser._map_role`: dictionary lookup returning `none` for any
unmapped (hashable) role; an unhashable role value raises `TypeError`. -/
def codexMapRole (rv : Json) : Except PyExc (Option String) :=
  match rv with
  | .arr _ => .error .typeErr
  | .obj _ => .error .typeErr
  | _ =>
    if rv.eqStr "user" then .ok (some "user")
    else if rv.eqStr "assistant" then .ok (some "assistant")
    else if rv.eqStr "developer" then .ok (some "system")
    else if rv.eqStr "system" then .ok (some "system")
    else .ok none

/-- `CodexParser._extract_content` (`input_text`/`output_text`/`text` blocks
all append their `text` value, which must be a string or `"\n".join`
raises). -/
def codexExtractContent : Option Json → Except PyExc String
  | none => .ok ""
  | some .null => .ok ""
  | some (.str s) => .ok s
  | some (.arr blocks) => do
    let parts ← codexBlocks blocks
    return String.intercalate "\n" parts
  | some _ => .ok ""
where
  codexBlocks : List Json → Except PyExc (List String)
    | [] => .ok []
    | b :: rest => do
      let tail ← codexBlocks rest
      match b with
      | .obj kvs =>
        let bt := jget kvs "type"
        if bt.any (·.eqStr "input_text") || bt.any (·.eqStr "output_text")
            || bt.any (·.eqStr "text") then
          match jget kvs "text" with
          | none => return "" :: tail
          | some (.str s) => return s :: tail
          | some _ => throw .typeErr
        else
          return tail
      | .str s => return s :: tail
      | _ => return tail

/-- `CodexParser._extract_response_item_message`. -/
def codexResponseItem (pkvs : List (String × Json)) (ts : Int)
    (machine project sess pathS : String) (lineOff : Nat) :
    Except PyExc (Option CanonicalMessage) :=
  match jget pkvs "role" with
  | none => .ok none
  | some rv =>
    if !rv.truthy then .ok none
    else do
      let role? ← codexMapRole rv
      match role? with
      | none => return none
      | some role => do
        let content ← codexExtractContent (jget pkvs "content")
        if content == "" then return none
        else
          return some ⟨"codex", machine, project, sess, ts, role, content, pathS, none,
                        some lineOff⟩

/-- Processing of one decoded Codex JSONL entry.  Returns the updated
`(project, session_id)` loop state and an optional message. -/
def codexEntry (env : PyEnv) (machine pathS : String) (project sess : String)
    (lineOff : Nat) (j : Json) :
    Except PyExc (String × String × Option CanonicalMessage) :=
  match j with
  | .obj kvs =>
    let ts := parse_timestamp env (jget kvs "timestamp")
    let et := jget kvs "type"
    if et.any (·.eqStr "session_meta") then
      match (jget kvs "payload").getD (.obj []) with
      | .obj pkvs => do
        let project2 ← match jget pkvs "cwd" with
          | none => pure ""
          | some (.str s) => pure s
          | some _ => throw PyExc.unmodelled
        let sess2 ← match jget pkvs "id" with
          | some v =>
            if v.truthy then
              match v with
              | .str s => pure s
              | _ => throw PyExc.unmodelled
            else pure sess
          | none => pure sess
        return (project2, sess2, none)
      | _ => .error .attr
    else if et.any (·.eqStr "response_item") then
      match (jget kvs "payload").getD (.obj []) with
      | .obj pkvs =>
        if (jget pkvs "type").any (·.eqStr "message") then do
          let m? ← codexResponseItem pkvs ts machine project sess pathS lineOff
          return (project, sess, m?)
        else .ok (project, sess, none)
      | _ => .error .attr
    else if et.any (·.eqStr "event_msg") then
      match (jget kvs "payload").getD (.obj []) with
      | .obj pkvs =>
        let mt := jget pkvs "type"
        if mt.any (·.eqStr "user_message") then
          match jgetD pkvs "message" (.str "") with
          | .str s =>
            if s == "" then .ok (project, sess, none)
            else .ok (project, sess, some ⟨"codex", machine, project, sess, ts, "user", s,
                                           pathS, none, some lineOff⟩)
          | v =>
            if v.truthy then .error .unmodelled else .ok (project, sess, none)
        else if mt.any (·.eqStr "agent_message") then
          match jgetD pkvs "message" (.str "") with
          | .str s =>
            if s == "" then .ok (project, sess, none)
            else .ok (project, sess, some ⟨"codex", machine, project, sess, ts, "assistant", s,
                                           pathS, none, some lineOff⟩)
          | v =>
            if v.truthy then .error .unmodelled else .ok (project, sess, none)
        else .ok (project, sess, none)
      | _ => .error .attr
    else .ok (project, sess, none)
  | _ => .error .attr

/-- The line loop of `CodexParser.parse`, threading the `project` and
`session_id` variables. -/
def codexGo (env : PyEnv) (machine pathS : String) :
    String → String → Nat → List (List Nat) → Except PyExc (List CanonicalMessage)
  | _, _, _, [] => .ok []
  | project, sess, cur, line :: rest =>
    match env.decodeLine line with
    | .undecodable => .error .unicode
    | .blank => codexGo env machine pathS project sess (cur + line.length) rest
    | .badJson => codexGo env machine pathS project sess (cur + line.length) rest
    | .entry j => do
      let (project2, sess2, m?) ← codexEntry env machine pathS project sess cur j
      let ms ← codexGo env machine pathS project2 sess2 (cur + line.length) rest
      match m? with
      | some m => return m :: ms
      | none => return ms

/-- `CodexParser.parse`. -/
def codexParse (env : PyEnv) (fs : FS) (p : PyPath) (machine : String) (fromOff : Nat) :
    Except PyExc (List CanonicalMessage × Nat) :=
  match fs p with
  | none => .error .oserror
  | some node =>
    let rest := node.bytes.drop fromOff
    do
      let msgs ← codexGo env machine p.pathStr "" (codexExtractSessionId p.stem) fromOff
        (splitLines rest)
      return (msgs, fromOff + rest.length)


/-! ### Antigravity parser (`processor/parsers/antigravity.py`) -/

/-- `AntigravityParser._normalize_role` (falsy → skip; `role.lower()` raises
`AttributeError` on a truthy non-string; unmapped lowercased roles → skip). -/
def agRoleMapping (l : String) : Option String :=
  if l == "user" then some "user"
  else if l == "human" then some "user"
  else if l == "assistant" then some "assistant"
  else if l == "model" then some "assistant"
  else if l == "ai" then some "assistant"
  else if l == "gemini" then some "assistant"
  else if l == "system" then some "system"
  else if l == "tool" then some "tool"
  else if l == "function" then some "tool"
  else none

def agNormalizeRole (role : Json) : Except PyExc (Option String) :=
  if !role.truthy then .ok none
  else
    match role with
    | .str s => .ok (agRoleMapping (strLower s))
    | _ => .error .attr

/-- One structured part of `AntigravityParser._extract_content`'s array case:
the three `if` blocks (plain text, tool call, tool result) run in sequence
and each may append one rendering. -/
def agPart (parts : List String) (part : Json) : Except PyExc (List String) :=
  match part with
  | .str s => .ok (parts ++ [s])
  | .obj pkvs => do
    let withText ←
      (let pt := pyOr (jgetD pkvs "text" .null) (jgetD pkvs "content" .null)
       if pt.truthy then
         match pt with
         | .str s => pure (parts ++ [s])
         | _ => throw PyExc.typeErr
       else pure parts)
    let withTool ←
      (if (jget pkvs "type").any (·.eqStr "tool_use") || jhas pkvs "toolCall" then do
        let nameV := jgetD pkvs "name" .null
        let tn ←
          if nameV.truthy then pure nameV
          else
            match jget pkvs "toolCall" with
            | none => pure (Json.str "tool")
            | some (.obj tkvs) => pure (jgetD tkvs "name" (.str "tool"))
            | some _ => throw PyExc.attr
        match pyStrScalar tn with
        | some name => pure (withText ++ ["[Tool: " ++ name ++ "]"])
        | none => throw PyExc.unmodelled
      else pure withText)
    let withResult ←
      (if (jget pkvs "type").any (·.eqStr "tool_result") || jhas pkvs "toolResult" then do
        let contentV := jgetD pkvs "content" .null
        let result ←
          if contentV.truthy then pure contentV
          else
            match jget pkvs "toolResult" with
            | none => pure (Json.str "")
            | some (.obj tkvs) => pure (jgetD tkvs "output" (.str ""))
            | some _ => throw PyExc.attr
        if result.truthy then
          match result with
          | .str s =>
            let preview := if 200 < s.length then s.take 200 ++ "..." else s
            pure (withTool ++ ["[Tool Result: " ++ preview ++ "]"])
          | .num n =>
            if 200 < (toString n).length then throw PyExc.typeErr
            else pure (withTool ++ ["[Tool Result: " ++ toString n ++ "]"])
          | .bool true => pure (withTool ++ ["[Tool Result: True]"])
          | _ => throw PyExc.unmodelled
        else pure withTool
      else pure withTool)
    return withResult
  | _ => .ok parts

/-- `AntigravityParser._extract_content`. -/
def agExtractContent (mkvs : List (String × Json)) : Except PyExc String :=
  let content := pyOr (jgetD mkvs "content" .null)
    (pyOr (jgetD mkvs "text" .null) (pyOr (jgetD mkvs "message" .null) (jgetD mkvs "value" .null)))
  match content with
  | .null => .ok ""
  | .str s => .ok s
  | .arr ps => do
    let parts ← ps.foldlM agPart []
    return String.intercalate "\n" parts
  | _ => .ok ""

/-- `AntigravityParser._extract_timestamp` (note `bool` is an `int` in
Python, so a truthy `True` timestamp becomes 1). -/
def agExtractTimestamp (env : PyEnv) (mkvs : List (String × Json)) : Int :=
  let tv := pyOr (jgetD mkvs "timestamp" .null)
    (pyOr (jgetD mkvs "createdAt" .null) (pyOr (jgetD mkvs "created_at" .null) (jgetD mkvs "time" .null)))
  match tv with
  | .null => 0
  | .num n => if 1000000000000 < n then n / 1000 else n
  | .bool b => if b then 1 else 0
  | .str s => if s == "" then 0 else (env.isoTs (zFix s)).getD 0
  | _ => 0

/-- `AntigravityParser._extract_message`. -/
def agExtractMessage (env : PyEnv) (msgData : Json) (conversation_id machine project pathS : String) :
    Except PyExc (Option CanonicalMessage) :=
  match msgData with
  | .obj mkvs => do
    let rawRole := pyOr (jgetD mkvs "role" .null)
      (pyOr (jgetD mkvs "type" .null) (jgetD mkvs "author" .null))
    let role? ← agNormalizeRole rawRole
    match role? with
    | none => return none
    | some role => do
      let content ← agExtractContent mkvs
      if content == "" then return none
      else
        let ts := agExtractTimestamp env mkvs
        return some ⟨"antigravity", machine, project, conversation_id, ts, role, content,
                      pathS, none, none⟩
  | _ => .ok none

/-- `AntigravityParser._is_conversation_file`. -/
def agIsConversationFile : Json → Bool
  | .obj kvs => jhas kvs "messages" && (jhas kvs "id" || jhas kvs "conversationId")
  | _ => false

/-- `AntigravityParser._is_brain_session`. -/
def agIsBrainSession : Json → Bool
  | .obj kvs => jhas kvs "sessionId" && (jhas kvs "workspaceUri" || jhas kvs "workspace")
  | _ => false

/-- Python `for` iteration over a JSON value: lists yield elements, strings
yield one-character strings, dicts yield their keys, the rest raise
`TypeError`. -/
def pyIter : Json → Except PyExc (List Json)
  | .arr xs => .ok xs
  | .str s => .ok (s.data.map (fun c => Json.str (String.mk [c])))
  | .obj kvs => .ok (kvs.map (fun kv => Json.str kv.1))
  | _ => .error .typeErr

/-- Strip the `file://` scheme as the parsers do. -/
def dropFileScheme (s : String) : String :=
  if strStartsWith s "file://" then s.drop 7 else s

/-- The shared per-record step of the antigravity message loops: extract a
message and append it, or keep the accumulator when the record is skipped. -/
def agMsgStep (env : PyEnv) (cid machine project pathS : String)
    (acc : List CanonicalMessage) (md : Json) : Except PyExc (List CanonicalMessage) := do
  let m? ← agExtractMessage env md cid machine project pathS
  match m? with
  | some m => pure (acc ++ [m])
  | none => pure acc

/-- The conversation-id extraction of `_parse_conversation`:
`data.get("id") or data.get("conversationId") or path.stem` (a non-string
truthy id would be stored raw in Python; `unmodelled` here). -/
def agConvId (kvs : List (String × Json)) (p : PyPath) : Except PyExc String :=
  match pyOr (jgetD kvs "id" .null) (pyOr (jgetD kvs "conversationId" .null) (.str p.stem)) with
  | .str s => .ok s
  | _ => .error .unmodelled

/-- The workspace extraction of `_parse_conversation`:
`data.get("workspaceUri", "")` with `file://` stripping; `.startswith` on a
non-string raises `AttributeError`. -/
def agConvProject (kvs : List (String × Json)) : Except PyExc String :=
  match jget kvs "workspaceUri" with
  | none => .ok ""
  | some (.str s) => .ok (dropFileScheme s)
  | some _ => .error .attr

/-- `AntigravityParser._parse_conversation`. -/
def agParseConversation (env : PyEnv) (kvs : List (String × Json)) (p : PyPath)
    (machine : String) : Except PyExc (List CanonicalMessage) := do
  let conversation_id ← agConvId kvs p
  let project ← agConvProject kvs
  let elems ← pyIter (jgetD kvs "messages" (.arr []))
  elems.foldlM (agMsgStep env conversation_id machine project p.pathStr) []

/-- The session-id extraction of `_parse_brain_session`:
`data.get("sessionId") or path.parent.name`. -/
def agBrainSessionId (kvs : List (String × Json)) (p : PyPath) : Except PyExc String :=
  match pyOr (jgetD kvs "sessionId" .null) (.str p.parentName) with
  | .str s => .ok s
  | _ => .error .unmodelled

/-- The workspace extraction of `_parse_brain_session`:
`data.get("workspaceUri") or data.get("workspace", "")`, unwrapping a dict
through its `uri` key, then `file://` stripping (raising on a non-string). -/
def agBrainProject (kvs : List (String × Json)) : Except PyExc String :=
  let projRaw := pyOr (jgetD kvs "workspaceUri" .null) (jgetD kvs "workspace" (.str ""))
  let projVal := match projRaw with
    | .obj pkvs => jgetD pkvs "uri" (.str "")
    | v => v
  match projVal with
  | .str s => .ok (dropFileScheme s)
  | _ => .error .attr

/-- One candidate message array of `_parse_brain_session`: non-lists are
skipped, lists contribute their extracted messages. -/
def agArrStep (env : PyEnv) (sid machine project pathS : String)
    (acc : List CanonicalMessage) (arrv : Json) : Except PyExc (List CanonicalMessage) :=
  match arrv with
  | .arr elems => elems.foldlM (agMsgStep env sid machine project pathS) acc
  | _ => pure acc

/-- `AntigravityParser._parse_brain_session`. -/
def agParseBrainSession (env : PyEnv) (kvs : List (String × Json)) (p : PyPath)
    (machine : String) : Except PyExc (List CanonicalMessage) := do
  let session_id ← agBrainSessionId kvs p
  let project ← agBrainProject kvs
  let arrays := [jgetD kvs "messages" (.arr []), jgetD kvs "history" (.arr []),
                 jgetD kvs "conversation" (.arr [])]
  arrays.foldlM (agArrStep env session_id machine project p.pathStr) []

/-- `AntigravityParser._looks_like_message`. -/
def agLooksLikeMessage (kvs : List (String × Json)) : Bool :=
  jhas kvs "role" || jhas kvs "content" || jhas kvs "text" || jhas kvs "message"
    || jhas kvs "type"

/-- `AntigravityParser._extract_project_from_path`. -/
def agProjectFromPath (p : PyPath) : String :=
  match p.parts.findIdx? (· == "brain") with
  | some i => if i + 1 < p.parts.length then p.parts.getD (i + 1) "" else ""
  | none => ""

/-- One element of `_parse_generic`'s top-level-list case: only dict entries
are extracted. -/
def agGenElemStep (env : PyEnv) (sid machine project pathS : String)
    (acc : List CanonicalMessage) (md : Json) : Except PyExc (List CanonicalMessage) :=
  match md with
  | .obj _ => agMsgStep env sid machine project pathS acc md
  | _ => pure acc

/-- One key-value pair of `_parse_generic`'s dict scan: a non-empty array
value whose first element is a message-shaped dict contributes its extracted
messages, anything else is skipped. -/
def agGenStep (env : PyEnv) (sid machine project pathS : String)
    (acc : List CanonicalMessage) (kv : String × Json) :
    Except PyExc (List CanonicalMessage) :=
  match kv.2 with
  | .arr (v0 :: vrest) =>
    match v0 with
    | .obj fkvs =>
      if agLooksLikeMessage fkvs then
        (v0 :: vrest).foldlM (agMsgStep env sid machine project pathS) acc
      else pure acc
    | _ => pure acc
  | _ => pure acc

/-- `AntigravityParser._parse_generic`: a top-level list is treated as the
message list (dict entries only); a top-level dict is scanned and every
non-empty array value whose first element is a message-shaped dict
contributes messages. -/
def agParseGeneric (env : PyEnv) (data : Json) (p : PyPath) (machine : String) :
    Except PyExc (List CanonicalMessage) :=
  let session_id := p.stem
  let project := agProjectFromPath p
  match data with
  | .arr elems => elems.foldlM (agGenElemStep env session_id machine project p.pathStr) []
  | .obj kvs => kvs.foldlM (agGenStep env session_id machine project p.pathStr) []
  | _ => .ok []

/-- `AntigravityParser.parse`: `OSError` on open and decode failures give
`([], 0)`; otherwise dispatch on the two named shapes, then the generic
scan, and return the file size as the new offset. -/
def antigravityParse (env : PyEnv) (fs : FS) (p : PyPath) (machine : String) (_fromOff : Nat) :
    Except PyExc (List CanonicalMessage × Nat) :=
  match fs p with
  | none => .ok ([], 0)
  | some node =>
    match env.jsonDecode node.bytes with
    | none => .ok ([], 0)
    | some data => do
      let msgs ←
        if agIsConversationFile data then
          match data with
          | .obj kvs => agParseConversation env kvs p machine
          | _ => .ok []
        else if agIsBrainSession data then
          match data with
          | .obj kvs => agParseBrainSession env kvs p machine
          | _ => .ok []
        else agParseGeneric env data p machine
      return (msgs, node.bytes.length)


/-! ### Gemini CLI parser (`processor/parsers/gemini.py`) -/

/-- `GeminiParser._extract_project_from_path`. -/
def geminiProjectFromPath (p : PyPath) : String :=
  match p.parts.findIdx? (· == "chats") with
  | some i => if 0 < i then p.parts.getD (i - 1) "" else ""
  | none => ""

/-- `GeminiParser._map_role`. -/
def geminiMapRole (mt : Option Json) : Option String :=
  if mt.any (·.eqStr "user") then some "user"
  else if mt.any (·.eqStr "gemini") then some "assistant"
  else none

/-- The tool-call rendering loop inside `GeminiParser._extract_content`. -/
def geminiToolCall (parts : List String) (tc : Json) : Except PyExc (List String) :=
  match tc with
  | .obj tkvs => do
    let toolName := jgetD tkvs "name" (.str "unknown")
    let displayName := jgetD tkvs "displayName" toolName
    let nm ← match pyStrScalar displayName with
      | some s => pure s
      | none => throw PyExc.unmodelled
    let withTool := parts ++ ["[Tool: " ++ nm ++ "]"]
    let results ← pyIter (jgetD tkvs "result" (.arr []))
    results.foldlM (fun acc r =>
      match r with
      | .obj rkvs => do
        let fr ← match jgetD rkvs "functionResponse" (.obj []) with
          | .obj fkvs => pure fkvs
          | _ => throw PyExc.attr
        let resp ← match jgetD fr "response" (.obj []) with
          | .obj rskvs => pure rskvs
          | _ => throw PyExc.attr
        let output := jgetD resp "output" (.str "")
        if output.truthy then
          match output with
          | .str s =>
            let truncated := if 200 < s.length then s.take 200 ++ "..." else s
            pure (acc ++ ["[Tool Result: " ++ truncated ++ "]"])
          | .arr _ => throw PyExc.unmodelled
          | _ => throw PyExc.typeErr
        else pure acc
      | _ => .error .attr) withTool
  | _ => .error .attr

/-- `GeminiParser._extract_content`. -/
def geminiExtractContent (mkvs : List (String × Json)) : Except PyExc String := do
  let contentV := jgetD mkvs "content" (.str "")
  let parts ←
    if contentV.truthy then
      match contentV with
      | .str s => pure [s]
      | _ => throw PyExc.typeErr
    else pure []
  let toolCalls ← pyIter (jgetD mkvs "toolCalls" (.arr []))
  let parts2 ← toolCalls.foldlM geminiToolCall parts
  return String.intercalate "\n" parts2

/-- The session-id extraction of `GeminiParser.parse`:
`data.get("sessionId", path.stem)` (a non-string value would be stored into
the string-typed `conversation_id`; `unmodelled`). -/
def geminiSessionId (kvs : List (String × Json)) (p : PyPath) : Except PyExc String :=
  match jget kvs "sessionId" with
  | none => .ok p.stem
  | some (.str s) => .ok s
  | some _ => .error .unmodelled

/-- One record of the message loop in `GeminiParser.parse`: unmapped
message types (`_map_role` returning `None`) and empty content are skipped,
everything else appends one message. -/
def geminiMsgStep (env : PyEnv) (machine project session_id pathS : String)
    (acc : List CanonicalMessage) (md : Json) : Except PyExc (List CanonicalMessage) :=
  match md with
  | .obj mkvs => do
    match geminiMapRole (jget mkvs "type") with
    | none => pure acc
    | some role => do
      let content ← geminiExtractContent mkvs
      if content == "" then pure acc
      else
        let ts := parse_timestamp env (jget mkvs "timestamp")
        pure (acc ++ [⟨"gemini_cli", machine, project, session_id, ts, role, content,
                       pathS, none, none⟩])
  | _ => .error .attr

/-- `GeminiParser.parse`: open/JSON failures return an empty list with the
current file size (0 when the file does not exist); otherwise the whole file
is re-parsed, skipping non-conversation message types and empty content. -/
def geminiParse (env : PyEnv) (fs : FS) (p : PyPath) (machine : String) (_fromOff : Nat) :
    Except PyExc (List CanonicalMessage × Nat) :=
  let project := geminiProjectFromPath p
  match fs p with
  | none => .ok ([], 0)
  | some node =>
    match env.jsonDecode node.bytes with
    | none => .ok ([], node.bytes.length)
    | some data =>
      match data with
      | .obj kvs => do
        let session_id ← geminiSessionId kvs p
        let elems ← pyIter (jgetD kvs "messages" (.arr []))
        let msgs ← elems.foldlM (geminiMsgStep env machine project session_id p.pathStr) []
        return (msgs, node.bytes.length)
      | _ => .error .attr


/-! ### VS Code Copilot parser (`processor/parsers/vscode.py`) -/

/-- A raw row of the `files` table (all data columns nullable, as in the
schema). -/
structure FilesRow where
  source : String
  path : String
  mtime : Option Int
  size : Option Int
  sha256 : Option String
  last_offset : Option Int
  last_synced : Option Int
deriving DecidableEq, Repr

/-- The `FileState` dataclass (`last_offset` coerced to 0 from NULL). -/
structure FileState where
  source : String
  path : String
  mtime : Option Int := none
  size : Option Int := none
  sha256 : Option String := none
  last_offset : Int := 0
  last_synced : Option Int := none
deriving DecidableEq, Repr

/-- `SELECT ... WHERE source = ? AND path = ?` (the primary key makes the
first match the only match). -/
def findRow : List FilesRow → String → String → Option FilesRow
  | [], _, _ => none
  | r :: t, source, path =>
    if r.source == source && r.path == path then some r else findRow t source path

/-- `CollectorState.get_file_state` (note the `row["last_offset"] or 0`
coercion, which maps NULL and 0 alike to 0). -/
def get_file_state (t : List FilesRow) (source path : String) : Option FileState :=
  (findRow t source path).map (fun r =>
    ⟨r.source, r.path, r.mtime, r.size, r.sha256, (r.last_offset.getD 0), r.last_synced⟩)

/-- The `**attrs` keyword arguments of `update_file_state`: an outer `none`
means the column is not named; the inner option is the (nullable) value. -/
structure FileAttrs where
  mtime : Option (Option Int) := none
  size : Option (Option Int) := none
  sha256 : Option (Option String) := none
  last_offset : Option (Option Int) := none
  last_synced : Option (Option Int) := none
deriving DecidableEq, Repr

def FileAttrs.isEmpty (a : FileAttrs) : Bool :=
  a.mtime.isNone && a.size.isNone && a.sha256.isNone && a.last_offset.isNone
    && a.last_synced.isNone

/-- `CollectorState.update_file_state`: insert a fresh row (with
`attrs.get("last_offset", 0)`) when the key is absent, otherwise `UPDATE`
exactly the named columns of the matching row. -/
def update_file_state (t : List FilesRow) (source path : String) (a : FileAttrs) :
    List FilesRow :=
  match findRow t source path with
  | none =>
    t ++ [⟨source, path, a.mtime.getD none, a.size.getD none, a.sha256.getD none,
           a.last_offset.getD (some 0), a.last_synced.getD none⟩]
  | some _ =>
    if a.isEmpty then t
    else
      t.map (fun r =>
        if r.source == source && r.path == path then
          ⟨r.source, r.path, a.mtime.getD r.mtime, a.size.getD r.size,
           a.sha256.getD r.sha256, a.last_offset.getD r.last_offset,
           a.last_synced.getD r.last_synced⟩
        else r)

/-! ### Collector change detection and copying (`collector/copier.py`) -/

/-- `source_path.suffix.lower() == ".jsonl"`. -/
def is_jsonl_path (p : PyPath) : Bool := strLower p.suffixStr == ".jsonl"

/-- `needs_sync` from `collector/copier.py`.  (`current_mtime` is computed in
the source but unused by the decision, so it is omitted here.) -/
def needs_sync (fs : FS) (p : PyPath) (state : Option FileState) : Bool × String × String :=
  match fs p with
  | none => (false, "file_not_found", "")
  | some node =>
    let current_size : Int := node.bytes.length
    let is_jsonl := is_jsonl_path p
    let current_hash := sha256hexBytes node.bytes
    match state with
    | none => (true, "new_file", current_hash)
    | some st =>
      if is_jsonl then
        if st.last_offset < current_size then (true, "new_bytes", current_hash)
        else if current_size < st.last_offset then (true, "file_reset", current_hash)
        else if st.sha256 ≠ some current_hash then (true, "content_changed", current_hash)
        else (false, "up_to_date", current_hash)
      else
        if st.sha256 ≠ some current_hash then (true, "hash_changed", current_hash)
        else (false, "up_to_date", current_hash)

/-- `copy_jsonl_incremental`, acting on the already-read source bytes (the
caller has established that the source exists).  Appends the bytes after
`from_offset` to the destination, creating it if needed, and returns the new
offset; no new bytes leaves the destination untouched and returns
`from_offset` unchanged. -/
def copy_jsonl_incremental (srcBytes : List Nat) (dfs : DestFS) (dest : PyPath)
    (from_offset : Int) : DestFS × Int :=
  let file_size : Int := srcBytes.length
  if file_size ≤ from_offset then (dfs, from_offset)
  else
    let new_bytes := srcBytes.drop from_offset.toNat
    ((fun q => if q = dest then some ((dfs dest).getD [] ++ new_bytes) else dfs q), file_size)

/-- `map_source_to_outbox`: `outbox/<machine_id>/<source>/<relative path>`,
relative to the home directory when the source lies under it (the
`lstrip("/")` fallback is the identity on component lists). -/
def map_source_to_outbox (source : String) (source_path : PyPath) (machine_id : String)
    (outbox home : PyPath) : PyPath :=
  let rel := match relTo source_path.parts home.parts with
    | some r => r
    | none => source_path.parts
  ⟨outbox.parts ++ [machine_id, source] ++ rel⟩

/-! ### Collector per-file sync (`collector/daemon.py`) -/

/-- `sync_file`: decide via `needs_sync`, then either incremental JSONL copy
(restarting from a deleted destination on `new_file`/`file_reset`/
`content_changed`) or whole-file snapshot copy, and record the new state.
Returns the new outbox, the new state table and whether a copy happened. -/
def sync_file (fs : FS) (dfs : DestFS) (source : String) (p : PyPath) (t : List FilesRow)
    (machine_id : String) (outbox home : PyPath) (now : Int) :
    DestFS × List FilesRow × Bool :=
  let file_state := get_file_state t source p.pathStr
  let (sync_needed, reason, current_hash) := needs_sync fs p file_state
  if !sync_needed then (dfs, t, false)
  else
    match fs p with
    | none => (dfs, t, false)  -- unreachable: every `needs=true` reason implies existence
    | some node =>
      let dest := map_source_to_outbox source p machine_id outbox home
      let current_mtime := node.mtime
      let current_size : Int := node.bytes.length
      if is_jsonl_path p then
        let (dfs1, from_offset) :=
          if reason == "file_reset" || reason == "content_changed" || reason == "new_file" then
            ((fun q => if q = dest then none else dfs q), (0 : Int))
          else (dfs, (file_state.map (·.last_offset)).getD 0)
        let (dfs2, new_offset) := copy_jsonl_incremental node.bytes dfs1 dest from_offset
        let t2 := update_file_state t source p.pathStr
          ⟨some (some current_mtime), some (some current_size), some (some current_hash),
           some (some new_offset), some (some now)⟩
        (dfs2, t2, true)
      else
        let dfs2 := fun q => if q = dest then some node.bytes else dfs q
        let t2 := update_file_state t source p.pathStr
          ⟨some (some current_mtime), some (some current_size), some (some current_hash),
           some (some current_size), some (some now)⟩
        (dfs2, t2, true)


/-! ### Processor state table (`processor/state.py`) -/

/-- A raw row of the `processed_files` table. -/
structure ProcRow where
  path : String
  last_offset : Option Int
  last_processed : Option Int
deriving DecidableEq, Repr

def findProcRow : List ProcRow → String → Option ProcRow
  | [], _ => none
  | r :: t, path => if r.path == path then some r else findProcRow t path

/-- `ProcessorState.get_last_offset` (via `get_file_state`, whose
`row["last_offset"] or 0` maps NULL to 0; untracked paths give 0). -/
def proc_get_last_offset (t : List ProcRow) (path : String) : Int :=
  match findProcRow t path with
  | none => 0
  | some r => r.last_offset.getD 0

/-- The `**attrs` of `ProcessorState.update_file_state`. -/
structure ProcAttrs where
  last_offset : Option (Option Int) := none
  last_processed : Option (Option Int) := none
deriving DecidableEq, Repr

/-- `ProcessorState.update_file_state`. -/
def proc_update_file_state (t : List ProcRow) (path : String) (a : ProcAttrs) :
    List ProcRow :=
  match findProcRow t path with
  | none => t ++ [⟨path, a.last_offset.getD (some 0), a.last_processed.getD none⟩]
  | some _ =>
    if a.last_offset.isNone && a.last_processed.isNone then t
    else
      t.map (fun r =>
        if r.path == path then
          ⟨r.path, a.last_offset.getD r.last_offset, a.last_processed.getD r.last_processed⟩
        else r)

/-! ### Processor per-file pipeline (`processor/daemon.py`) -/

/-- `detect_source_from_path`: second component of the path relative to the
inbox (`None` when the path is not under the inbox or too short). -/
def detect_source_from_path (p inbox : PyPath) : Option String :=
  match relTo p.parts inbox.parts with
  | some rel => if 2 ≤ rel.length then some (rel.getD 1 "") else none
  | none => none

/-- `extract_machine_id_from_path`: first component of the relative path,
else `"unknown"`. -/
def extract_machine_id_from_path (p inbox : PyPath) : String :=
  match relTo p.parts inbox.parts with
  | some rel => if 1 ≤ rel.length then rel.getD 0 "unknown" else "unknown"
  | none => "unknown"

/-- The parser contract as the processor sees it (`ParserRegistry.get`
result): a function from file system, path, machine id and last offset to
messages plus a new offset, or a raised exception. -/
def ParserFun : Type :=
  FS → PyPath → String → Int → Except PyExc (List CanonicalMessage × Nat)

/-- A parser registry (`ParserRegistry.get`, `None` when missing). -/
def Registry : Type := String → Option ParserFun

/-- The outcome of `indexer.upsert_messages` on a batch: `(success, failed)`
counts, or a raised exception.  (`_update_conversation_from_messages`
catches its own exceptions per conversation, so the indexing block's
observable outcomes are exactly these.) -/
def IndexerFun : Type := List CanonicalMessage → Except Unit (Nat × Nat)

/-- The counts `process_file` returns. -/
structure ProcCounts where
  messages : Nat
  indexed : Nat
  archived : Nat
deriving DecidableEq, Repr

/-- `process_file` from `processor/daemon.py`: resolve source and machine id
from the path, look up the parser, parse from the recorded offset, index
best-effort, persist the returned offset, then archive when the file is
stable.  `stable` models `is_file_stable` (a clock read) and `archiveOk`
whether `archive_file` succeeds; archiving touches only the file system, not
the state table (the source's comment about removing state is not code). -/
def process_file (fs : FS) (p inbox : PyPath) (t : List ProcRow) (registry : Registry)
    (indexer : Option IndexerFun) (stable : Bool) (archiveOk : Bool) (now : Int) :
    List ProcRow × ProcCounts :=
  match detect_source_from_path p inbox with
  | none => (t, ⟨0, 0, 0⟩)
  | some source =>
    let machine_id := extract_machine_id_from_path p inbox
    match registry source with
    | none => (t, ⟨0, 0, 0⟩)
    | some parser =>
      let file_key := p.pathStr
      let last_offset := proc_get_last_offset t file_key
      match parser fs p machine_id last_offset with
      | .error _ => (t, ⟨0, 0, 0⟩)
      | .ok (msgs, new_offset) =>
        let indexed :=
          match indexer with
          | none => 0
          | some idx =>
            if msgs.isEmpty then 0
            else
              match idx msgs with
              | .ok (succ, _) => succ
              | .error _ => 0
        let t2 := proc_update_file_state t file_key
          ⟨some (some (new_offset : Int)), some (some now)⟩
        let archived := if stable then (if archiveOk then 1 else 0) else 0
        (t2, ⟨msgs.length, indexed, archived⟩)

/-! ### Conversation aggregation (`_update_conversation_from_messages`) -/

/-- Timestamp order used by `sorted(conv_messages, key=lambda m: m.ts)`. -/
def tsLe (a b : CanonicalMessage) : Prop := a.ts ≤ b.ts

instance : DecidableRel tsLe := fun a b => inferInstanceAs (Decidable (a.ts ≤ b.ts))

instance : IsTotal CanonicalMessage tsLe := ⟨fun a b => Int.le_total a.ts b.ts⟩

instance : IsTrans CanonicalMessage tsLe := ⟨fun _ _ _ h1 h2 => le_trans h1 h2⟩

/-- `content[:n].strip()` followed by the `"..."` ellipsis when the full
content is longer than `n` (`pyStrip` models `str.strip` for ASCII
whitespace). -/
def ell (n : Nat) (s : String) : String :=
  let t := pyStrip (s.take n)
  if n < s.length then t ++ "..." else t

/-- Python `max(msgs, key=lambda m: m.ts)`: first maximal element wins. -/
def pyMaxByTs (m0 : CanonicalMessage) (rest : List CanonicalMessage) : CanonicalMessage :=
  rest.foldl (fun acc m => if acc.ts < m.ts then m else acc) m0

/-- Python `min` over a non-empty integer list. -/
def listMinInt (x : Int) (xs : List Int) : Int := xs.foldl min x

/-- Python `max` over a non-empty integer list. -/
def listMaxInt (x : Int) (xs : List Int) : Int := xs.foldl max x

/-- The per-conversation body of `_update_conversation_from_messages`:
aggregate one group of messages (`none` on the empty group, which the code
skips).  `List.insertionSort` is a stable sort, like Python's `sorted`. -/
def conversationOfGroup (conv_id : String) (msgs : List CanonicalMessage) :
    Option Conversation :=
  match msgs with
  | [] => none
  | m0 :: rest =>
    let first_ts := listMinInt m0.ts (rest.map (·.ts))
    let last_ts := listMaxInt m0.ts (rest.map (·.ts))
    let message_count := (m0 :: rest).length
    let userTitle :=
      match (List.insertionSort tsLe (m0 :: rest)).find? (fun m => m.role == "user") with
      | some m => ell 100 m.content
      | none => ""
    let title := if userTitle == "" then ell 100 m0.content else userTitle
    let last_msg := pyMaxByTs m0 rest
    let preview := ell 200 last_msg.content
    some ⟨m0.source, m0.machine_id, m0.project, conv_id, first_ts, last_ts, message_count,
          title, preview, none⟩

/-- The `defaultdict(list)` grouping by `conversation_id`, keys in first-seen
order, each group in message order. -/
def addToGroup : List (String × List CanonicalMessage) → CanonicalMessage →
    List (String × List CanonicalMessage)
  | [], m => [(m.conversation_id, [m])]
  | (k, g) :: rest, m =>
    if k == m.conversation_id then (k, g ++ [m]) :: rest
    else (k, g) :: addToGroup rest m

def groupByConv (msgs : List CanonicalMessage) :
    List (String × List CanonicalMessage) :=
  msgs.foldl addToGroup []

/-- The conversation documents `_update_conversation_from_messages` upserts
for a batch of messages (indexer failures are caught per conversation and do
not affect which documents are computed). -/
def update_conversations (msgs : List CanonicalMessage) : List Conversation :=
  (groupByConv msgs).filterMap (fun kg => conversationOfGroup kg.1 kg.2)


/-! ### Repeated syncing of a growing JSONL file -/

/-- Run `sync_file` after each append of a byte chunk to the source file,
starting from an empty source, empty outbox and empty state table; returns
the final source bytes, outbox, state table, and the recorded `last_offset`
after each step. -/
def runAppendsGo (source : String) (p : PyPath) (machine : String) (outbox home : PyPath)
    (mt now : Int) :
    List Nat → DestFS → List FilesRow → List (List Nat) →
      List Nat × DestFS × List FilesRow × List Int
  | src, dfs, t, [] => (src, dfs, t, [])
  | src, dfs, t, a :: rest =>
    let src2 := src ++ a
    let fs : FS := fun q => if q = p then some ⟨src2, mt⟩ else none
    let r := sync_file fs dfs source p t machine outbox home now
    let off := ((get_file_state r.2.1 source p.pathStr).map (·.last_offset)).getD 0
    let rec2 := runAppendsGo source p machine outbox home mt now src2 r.1 r.2.1 rest
    (rec2.1, rec2.2.1, rec2.2.2.1, off :: rec2.2.2.2)

def runAppends (source : String) (p : PyPath) (machine : String) (outbox home : PyPath)
    (mt now : Int) (appends : List (List Nat)) :
    List Nat × DestFS × List FilesRow × List Int :=
  runAppendsGo source p machine outbox home mt now [] (fun _ => none) [] appends

/-- Cumulative byte counts of a sequence of appends. -/
def cumOffsets (base : Nat) : List (List Nat) → List Int
  | [] => []
  | a :: rest => ((base + a.length : Nat) : Int) :: cumOffsets (base + a.length) rest


/-! ### Helper lemmas: state tables -/

/-- The row produced by the `UPDATE` branch of `update_file_state`. -/
def updRow (a : FileAttrs) (r : FilesRow) : FilesRow :=
  ⟨r.source, r.path, a.mtime.getD r.mtime, a.size.getD r.size, a.sha256.getD r.sha256,
   a.last_offset.getD r.last_offset, a.last_synced.getD r.last_synced⟩

theorem updRow_empty (a : FileAttrs) (r : FilesRow) (h : a.isEmpty = true) : updRow a r = r := by
  obtain ⟨m, s, h2, lo, ls⟩ := a
  simp only [FileAttrs.isEmpty, Bool.and_eq_true, Option.isNone_iff_eq_none] at h
  obtain ⟨⟨⟨⟨hm, hs⟩, hh⟩, hlo⟩, hls⟩ := h
  subst hm hs hh hlo hls
  rfl

theorem findRow_map_updRow (t : List FilesRow) (source path : String) (a : FileAttrs) :
    findRow (t.map (fun r => if r.source == source && r.path == path then updRow a r else r))
      source path = (findRow t source path).map (updRow a) := by
  induction t with
  | nil => rfl
  | cons r t ih =>
    by_cases hm : (r.source == source && r.path == path) = true
    · have hm2 : ((updRow a r).source == source && (updRow a r).path == path) = true := hm
      simp [findRow, hm, hm2]
    · simp only [List.map_cons]
      rw [if_neg hm]
      simp only [findRow]
      rw [if_neg hm, if_neg hm]
      exact ih

theorem update_eq_map_of_found (t : List FilesRow) (source path : String) (a : FileAttrs)
    (r : FilesRow) (h : findRow t source path = some r) :
    update_file_state t source path a
      = t.map (fun r2 => if r2.source == source && r2.path == path then updRow a r2 else r2) := by
  unfold update_file_state
  rw [h]
  by_cases he : a.isEmpty = true
  · simp only [he, if_true]
    have hid : ∀ r2 : FilesRow,
        (if r2.source == source && r2.path == path then updRow a r2 else r2) = r2 := by
      intro r2
      by_cases hc : (r2.source == source && r2.path == path) = true
      · simp [hc, updRow_empty a r2 he]
      · simp [hc]
    calc t = t.map id := by simp
    _ = _ := by
      apply List.map_congr_left
      intro r2 _
      exact (hid r2).symm
  · simp only [he, if_false]
    rfl

theorem findRow_update_existing (t : List FilesRow) (source path : String) (a : FileAttrs)
    (r : FilesRow) (h : findRow t source path = some r) :
    findRow (update_file_state t source path a) source path = some (updRow a r) := by
  rw [update_eq_map_of_found t source path a r h, findRow_map_updRow, h]
  rfl

theorem update_insert_of_none (t : List FilesRow) (source path : String) (a : FileAttrs)
    (h : findRow t source path = none) :
    update_file_state t source path a
      = t ++ [⟨source, path, a.mtime.getD none, a.size.getD none, a.sha256.getD none,
               a.last_offset.getD (some 0), a.last_synced.getD none⟩] := by
  unfold update_file_state
  rw [h]

theorem findRow_append_of_none (t : List FilesRow) (source path : String) (row : FilesRow)
    (h : findRow t source path = none)
    (hk : (row.source == source && row.path == path) = true) :
    findRow (t ++ [row]) source path = some row := by
  induction t with
  | nil => simp [findRow, hk]
  | cons r t ih =>
    simp only [findRow] at h
    by_cases hm : (r.source == source && r.path == path) = true
    · simp [hm] at h
    · simp only [hm, if_false] at h
      simpa [findRow, hm] using ih h

theorem findRow_update_insert (t : List FilesRow) (source path : String) (a : FileAttrs)
    (h : findRow t source path = none) :
    findRow (update_file_state t source path a) source path
      = some ⟨source, path, a.mtime.getD none, a.size.getD none, a.sha256.getD none,
              a.last_offset.getD (some 0), a.last_synced.getD none⟩ := by
  rw [update_insert_of_none t source path a h]
  exact findRow_append_of_none t source path _ h (by simp)

/-- The row produced by the `UPDATE` branch of the processor's
`update_file_state`. -/
def updProcRow (a : ProcAttrs) (r : ProcRow) : ProcRow :=
  ⟨r.path, a.last_offset.getD r.last_offset, a.last_processed.getD r.last_processed⟩

theorem findProcRow_map_updProcRow (t : List ProcRow) (path : String) (a : ProcAttrs) :
    findProcRow (t.map (fun r => if r.path == path then updProcRow a r else r)) path
      = (findProcRow t path).map (updProcRow a) := by
  induction t with
  | nil => rfl
  | cons r t ih =>
    by_cases hm : (r.path == path) = true
    · have hm2 : ((updProcRow a r).path == path) = true := hm
      simp [findProcRow, hm, hm2]
    · simp only [List.map_cons]
      rw [if_neg hm]
      simp only [findProcRow]
      rw [if_neg hm, if_neg hm]
      exact ih

theorem findProcRow_update_existing (t : List ProcRow) (path : String) (a : ProcAttrs)
    (r : ProcRow) (h : findProcRow t path = some r) (hne : ¬(a.last_offset.isNone ∧ a.last_processed.isNone)) :
    findProcRow (proc_update_file_state t path a) path = some (updProcRow a r) := by
  unfold proc_update_file_state
  rw [h]
  have : (a.last_offset.isNone && a.last_processed.isNone) = false := by
    rcases Bool.eq_false_or_eq_true a.last_offset.isNone with h1 | h1 <;>
      rcases Bool.eq_false_or_eq_true a.last_processed.isNone with h2 | h2 <;>
      simp_all
  rw [this]
  simp only [Bool.false_eq_true, if_false]
  have := findProcRow_map_updProcRow t path a
  rw [h] at this
  exact this

theorem findProcRow_append_of_none (t : List ProcRow) (path : String) (row : ProcRow)
    (h : findProcRow t path = none) (hk : (row.path == path) = true) :
    findProcRow (t ++ [row]) path = some row := by
  induction t with
  | nil => simp [findProcRow, hk]
  | cons r t ih =>
    simp only [findProcRow] at h
    by_cases hm : (r.path == path) = true
    · simp [hm] at h
    · simp only [hm, if_false] at h
      simpa [findProcRow, hm] using ih h

theorem findProcRow_update_insert (t : List ProcRow) (path : String) (a : ProcAttrs)
    (h : findProcRow t path = none) :
    findProcRow (proc_update_file_state t path a) path
      = some ⟨path, a.last_offset.getD (some 0), a.last_processed.getD none⟩ := by
  unfold proc_update_file_state
  rw [h]
  exact findProcRow_append_of_none t path _ h (by simp)


/-! ### Helper lemmas: folds, sorting, strings -/

theorem foldlM_ok_preserve {α β : Type} (P : β → Prop) (f : List β → α → Except PyExc (List β))
    (hf : ∀ acc x res, f acc x = .ok res → (∀ m ∈ acc, P m) → ∀ m ∈ res, P m) :
    ∀ (l : List α) (acc res : List β), List.foldlM f acc l = .ok res →
      (∀ m ∈ acc, P m) → ∀ m ∈ res, P m := by
  intro l
  induction l with
  | nil =>
    intro acc res h hacc
    simp only [List.foldlM_nil] at h
    cases h
    exact hacc
  | cons x l ih =>
    intro acc res h hacc
    simp only [List.foldlM_cons] at h
    cases hx : f acc x with
    | error e => rw [hx] at h; cases h
    | ok acc2 =>
      rw [hx] at h
      exact ih acc2 res h (hf acc x acc2 hx hacc)

theorem listMinInt_le (x : Int) (xs : List Int) :
    listMinInt x xs ≤ x ∧ ∀ y ∈ xs, listMinInt x xs ≤ y := by
  induction xs generalizing x with
  | nil => simp [listMinInt]
  | cons z zs ih =>
    have h2 := ih (min x z)
    constructor
    · exact le_trans h2.1 (min_le_left x z)
    · intro y hy
      rcases List.mem_cons.mp hy with h | h
      · subst h
        exact le_trans h2.1 (min_le_right x y)
      · exact h2.2 y h

theorem listMinInt_mem (x : Int) (xs : List Int) :
    listMinInt x xs = x ∨ listMinInt x xs ∈ xs := by
  induction xs generalizing x with
  | nil => left; rfl
  | cons z zs ih =>
    rcases ih (min x z) with h | h
    · rcases le_total x z with hle | hle
      · left
        rw [show listMinInt x (z :: zs) = listMinInt (min x z) zs from rfl, h, min_eq_left hle]
      · right
        rw [show listMinInt x (z :: zs) = listMinInt (min x z) zs from rfl, h, min_eq_right hle]
        exact List.mem_cons_self z zs
    · right
      exact List.mem_cons_of_mem z h

theorem listMaxInt_ge (x : Int) (xs : List Int) :
    x ≤ listMaxInt x xs ∧ ∀ y ∈ xs, y ≤ listMaxInt x xs := by
  induction xs generalizing x with
  | nil => simp [listMaxInt]
  | cons z zs ih =>
    have h2 := ih (max x z)
    constructor
    · exact le_trans (le_max_left x z) h2.1
    · intro y hy
      rcases List.mem_cons.mp hy with h | h
      · subst h
        exact le_trans (le_max_right x y) h2.1
      · exact h2.2 y h

theorem listMaxInt_mem (x : Int) (xs : List Int) :
    listMaxInt x xs = x ∨ listMaxInt x xs ∈ xs := by
  induction xs generalizing x with
  | nil => left; rfl
  | cons z zs ih =>
    rcases ih (max x z) with h | h
    · rcases le_total x z with hle | hle
      · right
        rw [show listMaxInt x (z :: zs) = listMaxInt (max x z) zs from rfl, h, max_eq_right hle]
        exact List.mem_cons_self z zs
      · left
        rw [show listMaxInt x (z :: zs) = listMaxInt (max x z) zs from rfl, h, max_eq_left hle]
    · right
      exact List.mem_cons_of_mem z h

theorem pyMaxByTs_mem (m0 : CanonicalMessage) (rest : List CanonicalMessage) :
    pyMaxByTs m0 rest = m0 ∨ pyMaxByTs m0 rest ∈ rest := by
  induction rest generalizing m0 with
  | nil => left; rfl
  | cons z zs ih =>
    have hstep : pyMaxByTs m0 (z :: zs) = pyMaxByTs (if m0.ts < z.ts then z else m0) zs := rfl
    rcases ih (if m0.ts < z.ts then z else m0) with h | h
    · rw [hstep, h]
      by_cases hc : m0.ts < z.ts
      · right; simp [hc]
      · left; simp [hc]
    · right
      rw [hstep]
      exact List.mem_cons_of_mem z h

theorem pyMaxByTs_ge (m0 : CanonicalMessage) (rest : List CanonicalMessage) :
    m0.ts ≤ (pyMaxByTs m0 rest).ts ∧ ∀ y ∈ rest, y.ts ≤ (pyMaxByTs m0 rest).ts := by
  induction rest generalizing m0 with
  | nil => simp [pyMaxByTs]
  | cons z zs ih =>
    have hstep : pyMaxByTs m0 (z :: zs) = pyMaxByTs (if m0.ts < z.ts then z else m0) zs := rfl
    have h2 := ih (if m0.ts < z.ts then z else m0)
    have hbase : m0.ts ≤ (if m0.ts < z.ts then z else m0).ts ∧
        z.ts ≤ (if m0.ts < z.ts then z else m0).ts := by
      by_cases hc : m0.ts < z.ts
      · simp [hc]; omega
      · simp [hc]; omega
    constructor
    · rw [hstep]; exact le_trans hbase.1 h2.1
    · intro y hy
      rcases List.mem_cons.mp hy with h | h
      · subst h; rw [hstep]; exact le_trans hbase.2 h2.1
      · rw [hstep]; exact h2.2 y h

theorem find?_sorted_min (l : List CanonicalMessage) (p : CanonicalMessage → Bool)
    (hs : List.Pairwise tsLe l) (x : CanonicalMessage) (hf : l.find? p = some x) :
    ∀ y ∈ l, p y = true → x.ts ≤ y.ts := by
  induction l with
  | nil => cases hf
  | cons a l ih =>
    intro y hy hpy
    by_cases hpa : p a = true
    · rw [List.find?_cons_of_pos _ hpa] at hf
      cases hf
      rcases List.mem_cons.mp hy with h | h
      · subst h; exact le_refl _
      · exact (List.pairwise_cons.mp hs).1 y h
    · rw [List.find?_cons_of_neg _ hpa] at hf
      rcases List.mem_cons.mp hy with h | h
      · subst h; exact absurd hpy hpa
      · exact ih (List.pairwise_cons.mp hs).2 hf y h hpy

theorem strAppend_cancel_left (a b c : String) (h : a ++ b = a ++ c) : b = c := by
  have := congrArg String.data h
  simp only [String.data_append] at this
  exact String.ext (List.append_cancel_left this)

theorem strAppend_cancel_right (a b c : String) (h : a ++ c = b ++ c) : a = b := by
  have := congrArg String.data h
  simp only [String.data_append] at this
  exact String.ext (List.append_cancel_right this)

theorem mkId_data (s m c : String) (t : Int) (hh : String) :
    (mkId s m c t hh).data
      = s.data ++ (":".data ++ (m.data ++ (":".data ++ (c.data ++ (":".data
          ++ ((toString t).data ++ (":".data ++ hh.data))))))) := by
  simp [mkId, String.data_append, List.append_assoc]

theorem mkId_inj_source (s1 s2 m c : String) (t : Int) (hh : String)
    (h : mkId s1 m c t hh = mkId s2 m c t hh) : s1 = s2 := by
  have hd := congrArg String.data h
  rw [mkId_data, mkId_data] at hd
  exact String.ext (List.append_cancel_right hd)

theorem mkId_inj_machine (s m1 m2 c : String) (t : Int) (hh : String)
    (h : mkId s m1 c t hh = mkId s m2 c t hh) : m1 = m2 := by
  have hd := congrArg String.data h
  rw [mkId_data, mkId_data] at hd
  have h1 := List.append_cancel_left hd
  have h2 := List.append_cancel_left h1
  exact String.ext (List.append_cancel_right h2)

theorem mkId_inj_conversation (s m c1 c2 : String) (t : Int) (hh : String)
    (h : mkId s m c1 t hh = mkId s m c2 t hh) : c1 = c2 := by
  have hd := congrArg String.data h
  rw [mkId_data, mkId_data] at hd
  have h1 := List.append_cancel_left (List.append_cancel_left (List.append_cancel_left
    (List.append_cancel_left hd)))
  exact String.ext (List.append_cancel_right h1)

theorem mkId_inj_ts (s m c : String) (t1 t2 : Int) (hh : String)
    (h : mkId s m c t1 hh = mkId s m c t2 hh) : t1 = t2 := by
  have hd := congrArg String.data h
  rw [mkId_data, mkId_data] at hd
  have h1 := List.append_cancel_left (List.append_cancel_left (List.append_cancel_left
    (List.append_cancel_left (List.append_cancel_left (List.append_cancel_left hd)))))
  have h2 := List.append_cancel_right h1
  exact intToString_inj t1 t2 (String.ext h2)

theorem mkId_inj_hash (s m c : String) (t : Int) (h1 h2 : String)
    (h : mkId s m c t h1 = mkId s m c t h2) : h1 = h2 := by
  have hd := congrArg String.data h
  rw [mkId_data, mkId_data] at hd
  have hx := List.append_cancel_left (List.append_cancel_left (List.append_cancel_left
    (List.append_cancel_left (List.append_cancel_left (List.append_cancel_left
      (List.append_cancel_left (List.append_cancel_left hd)))))))
  exact String.ext hx


/-- Decidable equality for `Except`, so parse results can be checked by
`decide` on concrete inputs. -/
def exceptDecEq {ε α : Type} [DecidableEq ε] [DecidableEq α] : DecidableEq (Except ε α)
  | .ok x, .ok y =>
    if h : x = y then .isTrue (by rw [h]) else .isFalse (by intro hc; cases hc; exact h rfl)
  | .error e, .error f =>
    if h : e = f then .isTrue (by rw [h]) else .isFalse (by intro hc; cases hc; exact h rfl)
  | .ok _, .error _ => .isFalse (by intro hc; cases hc)
  | .error _, .ok _ => .isFalse (by intro hc; cases hc)

instance {ε α : Type} [DecidableEq ε] [DecidableEq α] : DecidableEq (Except ε α) :=
  exceptDecEq

/-! ### Claim theorems -/

/-- C1: `needs_sync(path, state)` implements the spec's decision table
exactly, evaluated in order: missing path → `(false, "file_not_found", "")`;
no prior state → `(true, "new_file", hash)`; for a `.jsonl` (append-only)
file, size above/below the recorded `last_offset` → `new_bytes`/`file_reset`,
equal size with differing full-file SHA-256 → `content_changed`, else
`up_to_date`; for any other file, `hash_changed` iff the hash differs, else
`up_to_date`. -/
theorem needs_sync_decision_table (fs : FS) (p : PyPath) (st : Option FileState) :
    (fs p = none → needs_sync fs p st = (false, "file_not_found", "")) ∧
    (∀ node, fs p = some node →
      ((st = none → needs_sync fs p st = (true, "new_file", sha256hexBytes node.bytes)) ∧
       (∀ s, st = some s →
         ((is_jsonl_path p = true →
            ((s.last_offset < (node.bytes.length : Int) →
               needs_sync fs p st = (true, "new_bytes", sha256hexBytes node.bytes)) ∧
             ((node.bytes.length : Int) < s.last_offset →
               needs_sync fs p st = (true, "file_reset", sha256hexBytes node.bytes)) ∧
             ((node.bytes.length : Int) = s.last_offset →
               s.sha256 ≠ some (sha256hexBytes node.bytes) →
               needs_sync fs p st = (true, "content_changed", sha256hexBytes node.bytes)) ∧
             ((node.bytes.length : Int) = s.last_offset →
               s.sha256 = some (sha256hexBytes node.bytes) →
               needs_sync fs p st = (false, "up_to_date", sha256hexBytes node.bytes)))) ∧
          (is_jsonl_path p = false →
            ((s.sha256 ≠ some (sha256hexBytes node.bytes) →
               needs_sync fs p st = (true, "hash_changed", sha256hexBytes node.bytes)) ∧
             (s.sha256 = some (sha256hexBytes node.bytes) →
               needs_sync fs p st = (false, "up_to_date", sha256hexBytes node.bytes)))))))) := by
  constructor
  · intro hfs
    simp [needs_sync, hfs]
  · intro node hfs
    constructor
    · intro hst
      simp [needs_sync, hfs, hst]
    · intro s hst
      subst hst
      constructor
      · intro hjl
        refine ⟨?_, ?_, ?_, ?_⟩
        · intro hlt
          simp [needs_sync, hfs, hjl, hlt]
        · intro hlt
          have hnlt : ¬s.last_offset < (node.bytes.length : Int) := by omega
          simp [needs_sync, hfs, hjl, hnlt, hlt]
        · intro heq hne
          have h1 : ¬s.last_offset < (node.bytes.length : Int) := by omega
          have h2 : ¬(node.bytes.length : Int) < s.last_offset := by omega
          simp [needs_sync, hfs, hjl, h1, h2, hne]
        · intro heq hEq
          have h1 : ¬s.last_offset < (node.bytes.length : Int) := by omega
          have h2 : ¬(node.bytes.length : Int) < s.last_offset := by omega
          simp [needs_sync, hfs, hjl, h1, h2, hEq]
      · intro hjl
        constructor
        · intro hne
          simp [needs_sync, hfs, hjl, hne]
        · intro hEq
          simp [needs_sync, hfs, hjl, hEq]

/-- Witness for C1: the spec's own examples.  A 25-byte `.jsonl` file with
recorded `last_offset = 12` → `new_bytes`; the same state with a matching
5-byte file at offset 5 and matching hash → `up_to_date`. -/
theorem needs_sync_decision_table_witness :
    needs_sync (fun _ => some ⟨List.replicate 25 7, 3⟩) ⟨["h", "a.jsonl"]⟩
      (some ⟨"claude_code", "h/a.jsonl", none, none, none, 12, none⟩)
      = (true, "new_bytes", sha256hexBytes (List.replicate 25 7))
  ∧ needs_sync (fun _ => some ⟨List.replicate 5 7, 3⟩) ⟨["h", "a.jsonl"]⟩
      (some ⟨"claude_code", "h/a.jsonl", none, none,
             some (sha256hexBytes (List.replicate 5 7)), 5, none⟩)
      = (false, "up_to_date", sha256hexBytes (List.replicate 5 7)) := by
  constructor
  · exact ((((needs_sync_decision_table _ _ _).2 ⟨List.replicate 25 7, 3⟩ rfl).2 _ rfl).1
      (by decide)).1 (by decide)
  · exact ((((needs_sync_decision_table _ _ _).2 ⟨List.replicate 5 7, 3⟩ rfl).2 _ rfl).1
      (by decide)).2.2.2 (by decide) rfl

/-- C5: `content_hash` is the first 16 hex characters of SHA-256 of the
content (length always 16); `id` is the format string over the five
components; both are pure functions of their inputs, and changing exactly one
component while holding the others fixed changes the id. -/
theorem message_hash_and_id (msg : CanonicalMessage) (s2 m2 c2 : String) (t2 : Int)
    (h2 : String) :
    msg.contentHash = (sha256hexBytes (utf8Encode msg.content)).take 16
  ∧ msg.contentHash.length = 16
  ∧ msg.msgId = mkId msg.source msg.machine_id msg.conversation_id msg.ts msg.contentHash
  ∧ (∀ mb : CanonicalMessage, mb.content = msg.content → mb.contentHash = msg.contentHash)
  ∧ (∀ mb : CanonicalMessage, mb.source = msg.source → mb.machine_id = msg.machine_id →
       mb.conversation_id = msg.conversation_id → mb.ts = msg.ts →
       mb.content = msg.content → mb.msgId = msg.msgId)
  ∧ (s2 ≠ msg.source →
       mkId s2 msg.machine_id msg.conversation_id msg.ts msg.contentHash ≠ msg.msgId)
  ∧ (m2 ≠ msg.machine_id →
       mkId msg.source m2 msg.conversation_id msg.ts msg.contentHash ≠ msg.msgId)
  ∧ (c2 ≠ msg.conversation_id →
       mkId msg.source msg.machine_id c2 msg.ts msg.contentHash ≠ msg.msgId)
  ∧ (t2 ≠ msg.ts →
       mkId msg.source msg.machine_id msg.conversation_id t2 msg.contentHash ≠ msg.msgId)
  ∧ (h2 ≠ msg.contentHash →
       mkId msg.source msg.machine_id msg.conversation_id msg.ts h2 ≠ msg.msgId) := by
  refine ⟨rfl, ?_, rfl, ?_, ?_, ?_, ?_, ?_, ?_, ?_⟩
  · have h64 := sha256hexBytes_length (utf8Encode msg.content)
    have hch : msg.contentHash = (sha256hexBytes (utf8Encode msg.content)).take 16 := rfl
    rw [hch, String.take_eq]
    show ((sha256hexBytes (utf8Encode msg.content)).data.take 16).length = 16
    rw [List.length_take]
    simp only [String.length] at h64
    rw [h64]
    decide
  · intro mb hc
    simp [CanonicalMessage.contentHash, content_hash, hc]
  · intro mb h1 h2' h3 h4 h5
    simp [CanonicalMessage.msgId, CanonicalMessage.contentHash, content_hash, h1, h2', h3, h4, h5]
  · intro hne heq
    exact hne (mkId_inj_source _ _ _ _ _ _ heq)
  · intro hne heq
    exact hne (mkId_inj_machine _ _ _ _ _ _ heq)
  · intro hne heq
    exact hne (mkId_inj_conversation _ _ _ _ _ _ heq)
  · intro hne heq
    exact hne (mkId_inj_ts _ _ _ _ _ _ heq)
  · intro hne heq
    exact hne (mkId_inj_hash _ _ _ _ _ _ heq)

/-- Witness for C5 at a concrete message: a changed timestamp changes the id,
and the hash has length 16. -/
theorem message_hash_and_id_witness :
    ((7 : Int) ≠ (5 : Int)
      ∧ mkId "codex" "m1" "c1" 7
          (CanonicalMessage.contentHash ⟨"codex", "m1", "", "c1", 5, "user", "hi", "r", none, none⟩)
        ≠ (CanonicalMessage.msgId ⟨"codex", "m1", "", "c1", 5, "user", "hi", "r", none, none⟩))
  ∧ (CanonicalMessage.contentHash ⟨"codex", "m1", "", "c1", 5, "user", "hi", "r", none, none⟩).length
      = 16 := by
  constructor
  · exact ⟨by decide,
      (message_hash_and_id ⟨"codex", "m1", "", "c1", 5, "user", "hi", "r", none, none⟩ "x" "x" "x" 7
        "x").2.2.2.2.2.2.2.2.1 (by decide)⟩
  · exact (message_hash_and_id ⟨"codex", "m1", "", "c1", 5, "user", "hi", "r", none, none⟩ "x" "x" "x" 7
      "x").2.1

/-- C10: for a row already present, `update_file_state` changes exactly the
columns named in `attrs` (named ones take the new value, unnamed ones keep
the prior value, the key is untouched) and leaves every other row of the
table unchanged; a new row inserted with a subset of attributes gets
`last_offset` defaulted to 0. -/
theorem update_file_state_exact_columns (t : List FilesRow) (source path : String)
    (a : FileAttrs) :
    (∀ r, findRow t source path = some r →
      (update_file_state t source path a
          = t.map (fun r2 => if r2.source == source && r2.path == path then updRow a r2 else r2)
        ∧ findRow (update_file_state t source path a) source path = some (updRow a r)
        ∧ (updRow a r).source = r.source ∧ (updRow a r).path = r.path
        ∧ (a.mtime = none → (updRow a r).mtime = r.mtime)
        ∧ (a.size = none → (updRow a r).size = r.size)
        ∧ (a.sha256 = none → (updRow a r).sha256 = r.sha256)
        ∧ (a.last_offset = none → (updRow a r).last_offset = r.last_offset)
        ∧ (a.last_synced = none → (updRow a r).last_synced = r.last_synced)
        ∧ (∀ v, a.mtime = some v → (updRow a r).mtime = v)
        ∧ (∀ v, a.size = some v → (updRow a r).size = v)
        ∧ (∀ v, a.sha256 = some v → (updRow a r).sha256 = v)
        ∧ (∀ v, a.last_offset = some v → (updRow a r).last_offset = v)
        ∧ (∀ v, a.last_synced = some v → (updRow a r).last_synced = v)
        ∧ (∀ r2 ∈ t, ¬(r2.source = source ∧ r2.path = path) →
             r2 ∈ update_file_state t source path a)))
  ∧ (findRow t source path = none →
      (update_file_state t source path a
          = t ++ [⟨source, path, a.mtime.getD none, a.size.getD none, a.sha256.getD none,
                   a.last_offset.getD (some 0), a.last_synced.getD none⟩]
        ∧ (a.last_offset = none →
            ∃ row, findRow (update_file_state t source path a) source path = some row
              ∧ row.last_offset = some 0 ∧ row.source = source ∧ row.path = path))) := by
  constructor
  · intro r hrow
    have hmap := update_eq_map_of_found t source path a r hrow
    refine ⟨hmap, findRow_update_existing t source path a r hrow, rfl, rfl,
      ?_, ?_, ?_, ?_, ?_, ?_, ?_, ?_, ?_, ?_, ?_⟩
    · intro h; simp [updRow, h]
    · intro h; simp [updRow, h]
    · intro h; simp [updRow, h]
    · intro h; simp [updRow, h]
    · intro h; simp [updRow, h]
    · intro v h; simp [updRow, h]
    · intro v h; simp [updRow, h]
    · intro v h; simp [updRow, h]
    · intro v h; simp [updRow, h]
    · intro v h; simp [updRow, h]
    · intro r2 hmem hne
      rw [hmap]
      have : (if r2.source == source && r2.path == path then updRow a r2 else r2) = r2 := by
        have hcond : (r2.source == source && r2.path == path) = false := by
          by_cases hx : r2.source = source
          · by_cases hy : r2.path = path
            · exact absurd ⟨hx, hy⟩ hne
            · simp [hy]
          · simp [hx]
        rw [hcond]
        simp
      rw [← this]
      exact List.mem_map_of_mem _ hmem
  · intro hnone
    refine ⟨update_insert_of_none t source path a hnone, ?_⟩
    intro hlo
    refine ⟨_, findRow_update_insert t source path a hnone, ?_, rfl, rfl⟩
    simp [hlo]

/-- Witness for C10: updating one of two rows with only `sha256` named keeps
its other columns and the untouched row intact; inserting without
`last_offset` defaults it to 0. -/
theorem update_file_state_exact_columns_witness :
    (update_file_state
        [⟨"s", "p", some 1, some 2, some "h", some 9, some 4⟩,
         ⟨"s", "q", some 1, some 2, some "h", some 9, some 4⟩]
        "s" "p" ⟨none, none, some (some "h2"), none, none⟩
      = [⟨"s", "p", some 1, some 2, some "h2", some 9, some 4⟩,
         ⟨"s", "q", some 1, some 2, some "h", some 9, some 4⟩])
  ∧ (∃ row, findRow (update_file_state [] "s" "p" ⟨some (some 1), none, none, none, none⟩)
        "s" "p" = some row ∧ row.last_offset = some 0 ∧ row.source = "s" ∧ row.path = "p") := by
  constructor
  · have h := ((update_file_state_exact_columns
      [⟨"s", "p", some 1, some 2, some "h", some 9, some 4⟩,
       ⟨"s", "q", some 1, some 2, some "h", some 9, some 4⟩]
      "s" "p" ⟨none, none, some (some "h2"), none, none⟩).1
      ⟨"s", "p", some 1, some 2, some "h", some 9, some 4⟩ (by decide)).1
    rw [h]
    decide
  · exact ((update_file_state_exact_columns [] "s" "p"
      ⟨some (some 1), none, none, none, none⟩).2 (by decide)).2 (by decide)


theorem splitLines_nil : splitLines [] = [] := rfl

/-- C2: for the append-only parsers (Claude Code and Codex) on an unchanged
file, a successful parse from offset 0 followed by a parse from the returned
offset yields an empty message list and the same offset. -/
theorem jsonl_parse_idempotent (env : PyEnv) (fs : FS) (p : PyPath) (machine : String) :
    (∀ ms off, claudeCodeParse env fs p machine 0 = .ok (ms, off) →
        claudeCodeParse env fs p machine off = .ok ([], off))
  ∧ (∀ ms off, codexParse env fs p machine 0 = .ok (ms, off) →
        codexParse env fs p machine off = .ok ([], off)) := by
  constructor
  · intro ms off h
    cases hfs : fs p with
    | none => simp [claudeCodeParse, hfs] at h
    | some node =>
      simp only [claudeCodeParse, hfs, List.drop_zero] at h
      have hoff : off = node.bytes.length := by
        cases hgo : claudeGo env machine p.stem p.pathStr 0 (splitLines node.bytes) with
        | error e => rw [hgo] at h; simp [Except.bind] at h
        | ok msgs1 =>
          rw [hgo] at h
          have h2 : (Except.ok (msgs1, 0 + node.bytes.length) : Except PyExc _)
              = .ok (ms, off) := h
          have h3 := Except.ok.inj h2
          have h4 := congrArg Prod.snd h3
          simpa using h4.symm
      subst hoff
      simp [claudeCodeParse, hfs, List.drop_length, splitLines_nil, claudeGo, Except.bind]
  · intro ms off h
    cases hfs : fs p with
    | none => simp [codexParse, hfs] at h
    | some node =>
      simp only [codexParse, hfs, List.drop_zero] at h
      have hoff : off = node.bytes.length := by
        cases hgo : codexGo env machine p.pathStr "" (codexExtractSessionId p.stem) 0
            (splitLines node.bytes) with
        | error e => rw [hgo] at h; simp [Except.bind] at h
        | ok msgs1 =>
          rw [hgo] at h
          have h2 : (Except.ok (msgs1, 0 + node.bytes.length) : Except PyExc _)
              = .ok (ms, off) := h
          have h3 := Except.ok.inj h2
          have h4 := congrArg Prod.snd h3
          simpa using h4.symm
      subst hoff
      simp [codexParse, hfs, List.drop_length, splitLines_nil, codexGo, Except.bind]

/-- Witness for C2: a Claude Code file with one good entry and one malformed
line, and a Codex file with one `event_msg` entry; both resume to zero new
messages at the returned offset. -/
theorem jsonl_parse_idempotent_witness :
    claudeCodeParse
        ⟨fun l => if l == [1, 10] then
            .entry (.obj [("type", .str "user"),
              ("message", .obj [("role", .str "user"), ("content", .str "hi")])])
          else .badJson,
         fun _ => none, fun _ => none⟩
        (fun _ => some ⟨[1, 10, 2, 2], 0⟩) ⟨["a", "s.jsonl"]⟩ "m" 4 = .ok ([], 4)
  ∧ codexParse
        ⟨fun l => if l == [1, 10] then
            .entry (.obj [("type", .str "event_msg"),
              ("payload", .obj [("type", .str "user_message"), ("message", .str "yo")])])
          else .badJson,
         fun _ => none, fun _ => none⟩
        (fun _ => some ⟨[1, 10, 2, 2], 0⟩) ⟨["a", "s.jsonl"]⟩ "m" 4 = .ok ([], 4) := by
  constructor
  · exact (jsonl_parse_idempotent _ _ _ _).1
      [⟨"claude_code", "m", "", "s", 0, "user", "hi", "a/s.jsonl", none, some 0⟩] 4 (by decide)
  · exact (jsonl_parse_idempotent _ _ _ _).2
      [⟨"codex", "m", "", "s", 0, "user", "yo", "a/s.jsonl", none, some 0⟩] 4 (by decide)


/-- C6 (amended): for every non-empty message group, the conversation
aggregate has `message_count` = group size, `first_ts`/`last_ts` =
min/max member timestamp, `title` from a timestamp-minimal `user` message
(whitespace-stripped 100-character prefix, ellipsized) with fallback to the
group's first message in input order when there is no user message or the
user-derived title is empty, and `preview` from a timestamp-maximal message
(stripped 200-character prefix, ellipsized). -/
theorem conversationOfGroup_eq (cid : String) (m0 : CanonicalMessage)
    (rest : List CanonicalMessage) :
    conversationOfGroup cid (m0 :: rest) = some ⟨m0.source, m0.machine_id, m0.project, cid,
      listMinInt m0.ts (rest.map (·.ts)), listMaxInt m0.ts (rest.map (·.ts)),
      (m0 :: rest).length,
      (let userTitle :=
        match (List.insertionSort tsLe (m0 :: rest)).find? (fun m => m.role == "user") with
        | some m => ell 100 m.content
        | none => ""
       if userTitle == "" then ell 100 m0.content else userTitle),
      ell 200 (pyMaxByTs m0 rest).content, none⟩ := rfl

theorem conversation_aggregate (cid : String) (m0 : CanonicalMessage)
    (rest : List CanonicalMessage) :
    ∃ conv, conversationOfGroup cid (m0 :: rest) = some conv
      ∧ conv.message_count = (m0 :: rest).length
      ∧ conv.conversation_id = cid
      ∧ (conv.first_ts ∈ (m0 :: rest).map (·.ts) ∧ ∀ m ∈ m0 :: rest, conv.first_ts ≤ m.ts)
      ∧ (conv.last_ts ∈ (m0 :: rest).map (·.ts) ∧ ∀ m ∈ m0 :: rest, m.ts ≤ conv.last_ts)
      ∧ ((∀ m ∈ m0 :: rest, m.role ≠ "user") → conv.title = ell 100 m0.content)
      ∧ (∀ u ∈ m0 :: rest, u.role = "user" →
           ∃ w ∈ m0 :: rest, w.role = "user"
             ∧ (∀ v ∈ m0 :: rest, v.role = "user" → w.ts ≤ v.ts)
             ∧ conv.title
                 = (if ell 100 w.content == "" then ell 100 m0.content else ell 100 w.content))
      ∧ (∃ w ∈ m0 :: rest, (∀ v ∈ m0 :: rest, v.ts ≤ w.ts) ∧ conv.preview = ell 200 w.content)
      := by
  have hperm := List.perm_insertionSort tsLe (m0 :: rest)
  have hsorted := List.sorted_insertionSort tsLe (m0 :: rest)
  refine ⟨_, conversationOfGroup_eq cid m0 rest, rfl, rfl, ?_, ?_, ?_, ?_, ?_⟩
  · constructor
    · show listMinInt m0.ts (rest.map (·.ts)) ∈ (m0 :: rest).map (·.ts)
      rcases listMinInt_mem m0.ts (rest.map (·.ts)) with h | h
      · rw [h]
        exact List.mem_map_of_mem _ (List.mem_cons_self m0 rest)
      · simp only [List.map_cons]
        exact List.mem_cons_of_mem _ h
    · intro m hm
      have hb := listMinInt_le m0.ts (rest.map (·.ts))
      rcases List.mem_cons.mp hm with h | h
      · subst h; exact hb.1
      · exact hb.2 m.ts (List.mem_map_of_mem _ h)
  · constructor
    · show listMaxInt m0.ts (rest.map (·.ts)) ∈ (m0 :: rest).map (·.ts)
      rcases listMaxInt_mem m0.ts (rest.map (·.ts)) with h | h
      · rw [h]
        exact List.mem_map_of_mem _ (List.mem_cons_self m0 rest)
      · simp only [List.map_cons]
        exact List.mem_cons_of_mem _ h
    · intro m hm
      have hb := listMaxInt_ge m0.ts (rest.map (·.ts))
      rcases List.mem_cons.mp hm with h | h
      · subst h; exact hb.1
      · exact hb.2 m.ts (List.mem_map_of_mem _ h)
  · intro hnone
    have hfind : (List.insertionSort tsLe (m0 :: rest)).find? (fun m => m.role == "user")
        = none := by
      rw [List.find?_eq_none]
      intro x hx
      have hxm : x ∈ m0 :: rest := hperm.mem_iff.mp hx
      simpa using hnone x hxm
    show (let userTitle :=
        match (List.insertionSort tsLe (m0 :: rest)).find? (fun m => m.role == "user") with
        | some m => ell 100 m.content
        | none => ""
      if userTitle == "" then ell 100 m0.content else userTitle) = ell 100 m0.content
    rw [hfind]
    rfl
  · intro u hu hrole
    cases hfind : (List.insertionSort tsLe (m0 :: rest)).find? (fun m => m.role == "user") with
    | none =>
      exfalso
      rw [List.find?_eq_none] at hfind
      exact hfind u (hperm.mem_iff.mpr hu) (by simpa using hrole)
    | some w =>
      refine ⟨w, hperm.mem_iff.mp (List.mem_of_find?_eq_some hfind), ?_, ?_, ?_⟩
      · simpa using List.find?_some hfind
      · intro v hv hvrole
        exact find?_sorted_min _ _ hsorted w hfind v (hperm.mem_iff.mpr hv)
          (by simpa using hvrole)
      · rfl
  · refine ⟨pyMaxByTs m0 rest, ?_, ?_, rfl⟩
    · rcases pyMaxByTs_mem m0 rest with h | h
      · rw [h]; exact List.mem_cons_self m0 rest
      · exact List.mem_cons_of_mem _ h
    · intro v hv
      have hb := pyMaxByTs_ge m0 rest
      rcases List.mem_cons.mp hv with h | h
      · subst h; exact hb.1
      · exact hb.2 v h

/-- Witness for C6: a two-message group with one user message; the title
comes from that user message and the preview from the latest message. -/
theorem conversation_aggregate_witness :
    ∃ conv, conversationOfGroup "c"
        [⟨"codex", "m", "", "c", 5, "user", "hello", "r", none, none⟩,
         ⟨"codex", "m", "", "c", 9, "assistant", "world", "r", none, none⟩] = some conv
      ∧ conv.message_count = 2
      ∧ (∃ w ∈ [(⟨"codex", "m", "", "c", 5, "user", "hello", "r", none, none⟩ : CanonicalMessage),
                ⟨"codex", "m", "", "c", 9, "assistant", "world", "r", none, none⟩],
           w.role = "user"
           ∧ (∀ v ∈ [(⟨"codex", "m", "", "c", 5, "user", "hello", "r", none, none⟩ : CanonicalMessage),
                     ⟨"codex", "m", "", "c", 9, "assistant", "world", "r", none, none⟩],
                v.role = "user" → w.ts ≤ v.ts)
           ∧ conv.title = (if ell 100 w.content == ""
               then ell 100 (CanonicalMessage.content ⟨"codex", "m", "", "c", 5, "user", "hello", "r", none, none⟩)
               else ell 100 w.content)) := by
  obtain ⟨conv, h1, h2, h3, h4, h5, h6, h7, h8⟩ :=
    conversation_aggregate "c" ⟨"codex", "m", "", "c", 5, "user", "hello", "r", none, none⟩
      [⟨"codex", "m", "", "c", 9, "assistant", "world", "r", none, none⟩]
  exact ⟨conv, h1, h2, h7 _ (List.mem_cons_self _ _) rfl⟩

set_option maxRecDepth 40000 in
/-- Counterexample for C6 as stated: in a group with no user message whose
first-listed message is not the timestamp-earliest one, the title comes from
the first-listed message (content "B", ts 10), not from the earliest message
(content "A", ts 5) as the claim requires. -/
theorem conversation_title_fallback_cex :
    ¬ ((conversationOfGroup "c"
          [⟨"codex", "m", "", "c", 10, "assistant", "B", "r", none, none⟩,
           ⟨"codex", "m", "", "c", 5, "assistant", "A", "r", none, none⟩]).map
        (fun cv => cv.title) = some "A")
  ∧ (conversationOfGroup "c"
        [⟨"codex", "m", "", "c", 10, "assistant", "B", "r", none, none⟩,
         ⟨"codex", "m", "", "c", 5, "assistant", "A", "r", none, none⟩]).map
      (fun cv => cv.title) = some "B" := by
  constructor
  · decide
  · decide


theorem proc_get_last_offset_update (t : List ProcRow) (k : String) (v now : Int) :
    proc_get_last_offset
      (proc_update_file_state t k ⟨some (some v), some (some now)⟩) k = v := by
  cases hrow : findProcRow t k with
  | none =>
    have h := findProcRow_update_insert t k ⟨some (some v), some (some now)⟩ hrow
    simp [proc_get_last_offset, h]
  | some r =>
    have h := findProcRow_update_existing t k ⟨some (some v), some (some now)⟩ r hrow
      (by simp)
    simp [proc_get_last_offset, h, updProcRow]

/-- C8: when the parser succeeds, `process_file` persists the parser's
returned offset into the processing state whatever the indexing outcome
(including a raising indexer or reported failures); when the parser raises,
the state table is left unchanged. -/
theorem process_file_offset_vs_indexing (fs : FS) (p inbox : PyPath) (t : List ProcRow)
    (registry : Registry) (stable archiveOk : Bool) (now : Int) (source : String)
    (parser : ParserFun)
    (hsrc : detect_source_from_path p inbox = some source)
    (hreg : registry source = some parser) :
    (∀ msgs off, parser fs p (extract_machine_id_from_path p inbox)
        (proc_get_last_offset t p.pathStr) = .ok (msgs, off) →
      ∀ indexer : Option IndexerFun,
        (process_file fs p inbox t registry indexer stable archiveOk now).1
            = proc_update_file_state t p.pathStr ⟨some (some (off : Int)), some (some now)⟩
          ∧ proc_get_last_offset
              (process_file fs p inbox t registry indexer stable archiveOk now).1 p.pathStr
            = (off : Int))
  ∧ (∀ e, parser fs p (extract_machine_id_from_path p inbox)
        (proc_get_last_offset t p.pathStr) = .error e →
      ∀ indexer : Option IndexerFun,
        (process_file fs p inbox t registry indexer stable archiveOk now).1 = t) := by
  constructor
  · intro msgs off hpar indexer
    have h1 : (process_file fs p inbox t registry indexer stable archiveOk now).1
        = proc_update_file_state t p.pathStr ⟨some (some (off : Int)), some (some now)⟩ := by
      simp only [process_file, hsrc, hreg, hpar]
    exact ⟨h1, by rw [h1]; exact proc_get_last_offset_update t p.pathStr off now⟩
  · intro e hpar indexer
    simp only [process_file, hsrc, hreg, hpar]

/-- Witness for C8: a parser returning offset 7 on an inbox file; with no
indexer configured the recorded offset becomes 7. -/
theorem process_file_offset_vs_indexing_witness :
    proc_get_last_offset
      (process_file (fun _ => none) ⟨["in", "m1", "codex", "f.jsonl"]⟩ ⟨["in"]⟩ []
        (fun s => if s == "codex" then some (fun _ _ _ _ => .ok ([], 7)) else none)
        none true true 11).1
      (PyPath.pathStr ⟨["in", "m1", "codex", "f.jsonl"]⟩) = 7 := by
  exact ((process_file_offset_vs_indexing (fun _ => none) ⟨["in", "m1", "codex", "f.jsonl"]⟩
      ⟨["in"]⟩ [] (fun s => if s == "codex" then some (fun _ _ _ _ => .ok ([], 7)) else none)
      true true 11 "codex" (fun _ _ _ _ => .ok ([], 7)) (by decide) rfl).1 [] 7 rfl none).2


def canonicalRoles : List String := ["user", "assistant", "system", "tool"]

theorem codexMapRole_mem (rv : Json) (role : String)
    (h : codexMapRole rv = .ok (some role)) : role ∈ canonicalRoles := by
  unfold codexMapRole at h
  cases rv
  case arr => exact Except.noConfusion h
  case obj => exact Except.noConfusion h
  all_goals
    (repeat' split at h) <;>
      first
        | (subst h; decide)
        | (simp only [Except.ok.injEq, Option.some.injEq] at h; subst h; decide)
        | (simp at h)

theorem codexResponseItem_role (pkvs : List (String × Json)) (ts : Int)
    (machine project sess pathS : String) (off : Nat) (m : CanonicalMessage)
    (h : codexResponseItem pkvs ts machine project sess pathS off = .ok (some m)) :
    m.role ∈ canonicalRoles := by
  unfold codexResponseItem at h
  split at h
  · simp at h
  · split at h
    · simp at h
    · simp only [Except.bind, bind] at h
      cases hmr : codexMapRole _ with
      | error e => rw [hmr] at h; simp [Except.bind] at h
      | ok role? =>
        rw [hmr] at h
        cases role? with
        | none => simp [Except.bind, pure, Except.pure] at h
        | some role =>
          simp only [Except.bind] at h
          cases hc : codexExtractContent _ with
          | error e => rw [hc] at h; simp [Except.bind] at h
          | ok content =>
            rw [hc] at h
            simp only [Except.bind] at h
            split at h
            · simp [pure, Except.pure] at h
            · simp only [pure, Except.pure, Except.ok.injEq, Option.some.injEq] at h
              have : m.role = role := by rw [← h]
              rw [this]
              exact codexMapRole_mem _ _ hmr


theorem codexEntry_role (env : PyEnv) (machine pathS project sess : String) (off : Nat)
    (j : Json) (p2 s2 : String) (m : CanonicalMessage)
    (h : codexEntry env machine pathS project sess off j = .ok (p2, s2, some m)) :
    m.role ∈ canonicalRoles := by
  cases j with
  | obj kvs =>
    simp only [codexEntry] at h
    split at h
    · -- session_meta: never yields a message
      split at h
      · simp only [Except.bind, bind] at h
        repeat' split at h
        all_goals
          first
            | exact Except.noConfusion h
            | (simp only [pure, Except.pure, Except.ok.injEq, Prod.mk.injEq] at h
               exact Option.noConfusion h.2.2)
      · exact Except.noConfusion h
    · split at h
      · -- response_item
        split at h
        · split at h
          · simp only [Except.bind, bind] at h
            cases hr : codexResponseItem _ _ _ _ _ _ _ with
            | error e => rw [hr] at h; simp [Except.bind] at h
            | ok m? =>
              rw [hr] at h
              simp only [Except.bind, pure, Except.pure, Except.ok.injEq, Prod.mk.injEq] at h
              cases m? with
              | none => simp at h
              | some m2 =>
                have hm : m2 = m := by
                  have := h.2.2
                  simpa using this
                rw [← hm]
                exact codexResponseItem_role _ _ _ _ _ _ _ _ hr
          · simp [pure, Except.pure] at h
        · exact Except.noConfusion h
      · split at h
        · -- event_msg
          split at h
          · repeat' split at h
            all_goals
              first
                | exact Except.noConfusion h
                | (simp only [pure, Except.pure, Except.ok.injEq, Prod.mk.injEq,
                     Option.some.injEq] at h
                   first
                     | (rw [← h.2.2]; simp [canonicalRoles])
                     | exact Option.noConfusion h.2.2)
          · exact Except.noConfusion h
        · simp [pure, Except.pure] at h
  | null => exact Except.noConfusion h
  | bool b => exact Except.noConfusion h
  | num n => exact Except.noConfusion h
  | str s => exact Except.noConfusion h
  | arr xs => exact Except.noConfusion h


theorem codexGo_roles (env : PyEnv) (machine pathS : String) :
    ∀ (lines : List (List Nat)) (project sess : String) (cur : Nat)
      (ms : List CanonicalMessage),
      codexGo env machine pathS project sess cur lines = .ok ms →
      ∀ m ∈ ms, m.role ∈ canonicalRoles := by
  intro lines
  induction lines with
  | nil =>
    intro project sess cur ms h m hm
    simp only [codexGo] at h
    cases h
    cases hm
  | cons l rest ih =>
    intro project sess cur ms h m hm
    simp only [codexGo] at h
    split at h
    · exact Except.noConfusion h
    · exact ih project sess _ ms h m hm
    · exact ih project sess _ ms h m hm
    · rename_i j hdec
      simp only [Except.bind, bind] at h
      cases he : codexEntry env machine pathS project sess cur j with
      | error e => rw [he] at h; simp [Except.bind] at h
      | ok trip =>
        rw [he] at h
        obtain ⟨p2, s2, m?⟩ := trip
        simp only [Except.bind] at h
        cases hrec : codexGo env machine pathS p2 s2 (cur + l.length) rest with
        | error e => rw [hrec] at h; simp [Except.bind] at h
        | ok ms2 =>
          rw [hrec] at h
          cases m? with
          | none =>
            simp only [pure, Except.pure, Except.ok.injEq] at h
            subst h
            exact ih p2 s2 _ ms2 hrec m hm
          | some m1 =>
            simp only [pure, Except.pure, Except.ok.injEq] at h
            subst h
            rcases List.mem_cons.mp hm with hmm | hmm
            · subst hmm
              exact codexEntry_role env machine pathS project sess cur j p2 s2 m he
            · exact ih p2 s2 _ ms2 hrec m hmm

theorem agRoleMapping_mem (l : String) (r : String) (h : agRoleMapping l = some r) :
    r ∈ canonicalRoles := by
  unfold agRoleMapping at h
  split_ifs at h <;>
    first
      | (simp only [Option.some.injEq] at h; subst h; decide)
      | (simp at h)

theorem agNormalizeRole_mem (role : Json) (r : String)
    (h : agNormalizeRole role = .ok (some r)) : r ∈ canonicalRoles := by
  unfold agNormalizeRole at h
  split at h
  · exact Option.noConfusion (Except.ok.inj h)
  · split at h
    all_goals
      first
        | exact Except.noConfusion h
        | exact agRoleMapping_mem _ _ (Except.ok.inj h)

theorem agExtractMessage_role (env : PyEnv) (msgData : Json)
    (cid machine project pathS : String) (m : CanonicalMessage)
    (h : agExtractMessage env msgData cid machine project pathS = .ok (some m)) :
    m.role ∈ canonicalRoles := by
  cases msgData with
  | obj mkvs =>
    simp only [agExtractMessage, Except.bind, bind] at h
    cases hr : agNormalizeRole _ with
    | error e => rw [hr] at h; simp [Except.bind] at h
    | ok role? =>
      rw [hr] at h
      cases role? with
      | none => simp [Except.bind, pure, Except.pure] at h
      | some role =>
        simp only [Except.bind] at h
        cases hc : agExtractContent mkvs with
        | error e => rw [hc] at h; simp [Except.bind] at h
        | ok content =>
          rw [hc] at h
          simp only [Except.bind] at h
          split at h
          · simp [pure, Except.pure] at h
          · simp only [pure, Except.pure, Except.ok.injEq, Option.some.injEq] at h
            have : m.role = role := by rw [← h]
            rw [this]
            exact agNormalizeRole_mem _ _ hr
  | null => simp [agExtractMessage, pure, Except.pure] at h
  | bool b => simp [agExtractMessage, pure, Except.pure] at h
  | num n => simp [agExtractMessage, pure, Except.pure] at h
  | str s => simp [agExtractMessage, pure, Except.pure] at h
  | arr xs => simp [agExtractMessage, pure, Except.pure] at h

theorem agMsgStep_preserve (env : PyEnv) (cid machine project pathS : String)
    (acc : List CanonicalMessage) (md : Json) (res : List CanonicalMessage)
    (hstep : agMsgStep env cid machine project pathS acc md = .ok res)
    (hacc : ∀ m ∈ acc, m.role ∈ canonicalRoles) :
    ∀ m ∈ res, m.role ∈ canonicalRoles := by
  simp only [agMsgStep, Except.bind, bind] at hstep
  cases he : agExtractMessage env md cid machine project pathS with
  | error e => rw [he] at hstep; simp [Except.bind] at hstep
  | ok m? =>
    rw [he] at hstep
    cases m? with
    | none =>
      simp only [Except.bind, pure, Except.pure, Except.ok.injEq] at hstep
      subst hstep
      exact hacc
    | some m1 =>
      simp only [Except.bind, pure, Except.pure, Except.ok.injEq] at hstep
      subst hstep
      intro m hm
      rcases List.mem_append.mp hm with hmm | hmm
      · exact hacc m hmm
      · rw [List.mem_singleton.mp hmm]
        exact agExtractMessage_role env md cid machine project pathS m1 he

theorem agMsgFold_roles (env : PyEnv) (cid machine project pathS : String)
    (elems : List Json) (acc res : List CanonicalMessage)
    (hacc : ∀ m ∈ acc, m.role ∈ canonicalRoles)
    (h : elems.foldlM (agMsgStep env cid machine project pathS) acc = .ok res) :
    ∀ m ∈ res, m.role ∈ canonicalRoles := by
  exact foldlM_ok_preserve (fun m => m.role ∈ canonicalRoles) _
    (fun a x r hs ha => agMsgStep_preserve env cid machine project pathS a x r hs ha)
    elems acc res h hacc

theorem agParseConversation_roles (env : PyEnv) (kvs : List (String × Json)) (p : PyPath)
    (machine : String) (ms : List CanonicalMessage)
    (h : agParseConversation env kvs p machine = .ok ms) :
    ∀ m ∈ ms, m.role ∈ canonicalRoles := by
  simp only [agParseConversation, Except.bind, bind] at h
  cases hcid : agConvId kvs p with
  | error e => rw [hcid] at h; simp [Except.bind] at h
  | ok conversation_id =>
    rw [hcid] at h
    simp only [Except.bind] at h
    cases hproj : agConvProject kvs with
    | error e => rw [hproj] at h; simp [Except.bind] at h
    | ok project =>
      rw [hproj] at h
      simp only [Except.bind] at h
      cases hit : pyIter (jgetD kvs "messages" (.arr [])) with
      | error e => rw [hit] at h; simp [Except.bind] at h
      | ok elems =>
        rw [hit] at h
        simp only [Except.bind] at h
        exact agMsgFold_roles env conversation_id machine project p.pathStr elems [] ms
          (by simp) h

theorem agParseBrainSession_roles (env : PyEnv) (kvs : List (String × Json)) (p : PyPath)
    (machine : String) (ms : List CanonicalMessage)
    (h : agParseBrainSession env kvs p machine = .ok ms) :
    ∀ m ∈ ms, m.role ∈ canonicalRoles := by
  simp only [agParseBrainSession, Except.bind, bind] at h
  cases hsid : agBrainSessionId kvs p with
  | error e => rw [hsid] at h; simp [Except.bind] at h
  | ok session_id =>
    rw [hsid] at h
    simp only [Except.bind] at h
    cases hproj : agBrainProject kvs with
    | error e => rw [hproj] at h; simp [Except.bind] at h
    | ok project =>
      rw [hproj] at h
      simp only [Except.bind] at h
      refine foldlM_ok_preserve (fun m => m.role ∈ canonicalRoles) _ ?_ _ [] ms h (by simp)
      intro acc arrv res2 hstep hacc
      simp only [agArrStep] at hstep
      match arrv, hstep with
      | .arr elems, hstep =>
        exact agMsgFold_roles env session_id machine project p.pathStr elems acc res2
          hacc hstep
      | .null, hstep | .bool _, hstep | .num _, hstep | .str _, hstep | .obj _, hstep =>
        simp only [pure, Except.pure, Except.ok.injEq] at hstep
        subst hstep
        exact hacc

theorem agParseGeneric_roles (env : PyEnv) (data : Json) (p : PyPath) (machine : String)
    (ms : List CanonicalMessage) (h : agParseGeneric env data p machine = .ok ms) :
    ∀ m ∈ ms, m.role ∈ canonicalRoles := by
  cases data with
  | arr elems =>
    simp only [agParseGeneric] at h
    refine foldlM_ok_preserve (fun m => m.role ∈ canonicalRoles) _ ?_ elems [] ms h (by simp)
    intro acc md res2 hstep hacc
    simp only [agGenElemStep] at hstep
    match md, hstep with
    | .obj fkvs, hstep =>
      exact agMsgStep_preserve env _ machine _ p.pathStr acc _ res2 hstep hacc
    | .null, hstep | .bool _, hstep | .num _, hstep | .str _, hstep | .arr _, hstep =>
      simp only [pure, Except.pure, Except.ok.injEq] at hstep
      subst hstep
      exact hacc
  | obj kvs =>
    simp only [agParseGeneric] at h
    refine foldlM_ok_preserve (fun m => m.role ∈ canonicalRoles) _ ?_ kvs [] ms h (by simp)
    intro acc kv res2 hstep hacc
    simp only [agGenStep] at hstep
    repeat' split at hstep
    all_goals
      first
        | exact agMsgFold_roles env _ machine _ p.pathStr _ acc res2 hacc hstep
        | (simp only [pure, Except.pure, Except.ok.injEq] at hstep; subst hstep; exact hacc)
  | null => simp only [agParseGeneric] at h; cases h; simp
  | bool b => simp only [agParseGeneric] at h; cases h; simp
  | num n => simp only [agParseGeneric] at h; cases h; simp
  | str s => simp only [agParseGeneric] at h; cases h; simp

theorem geminiMapRole_mem (mt : Option Json) (r : String) (h : geminiMapRole mt = some r) :
    r ∈ canonicalRoles := by
  unfold geminiMapRole at h
  split_ifs at h with h1 h2
  · simp only [Option.some.injEq] at h
    subst h
    decide
  · simp only [Option.some.injEq] at h
    subst h
    decide

theorem geminiMsgStep_preserve (env : PyEnv) (machine project sid pathS : String)
    (acc : List CanonicalMessage) (md : Json) (res : List CanonicalMessage)
    (hstep : geminiMsgStep env machine project sid pathS acc md = .ok res)
    (hacc : ∀ m ∈ acc, m.role ∈ canonicalRoles) :
    ∀ m ∈ res, m.role ∈ canonicalRoles := by
  cases md with
  | obj mkvs =>
    simp only [geminiMsgStep] at hstep
    cases hrole : geminiMapRole (jget mkvs "type") with
    | none =>
      rw [hrole] at hstep
      simp only [pure, Except.pure, Except.ok.injEq] at hstep
      subst hstep
      exact hacc
    | some role =>
      rw [hrole] at hstep
      simp only [Except.bind, bind] at hstep
      cases hc : geminiExtractContent mkvs with
      | error e => rw [hc] at hstep; simp [Except.bind] at hstep
      | ok content =>
        rw [hc] at hstep
        simp only [Except.bind] at hstep
        by_cases hemp : (content == "") = true
        · rw [if_pos hemp] at hstep
          simp only [pure, Except.pure, Except.ok.injEq] at hstep
          subst hstep
          exact hacc
        · rw [if_neg hemp] at hstep
          simp only [pure, Except.pure, Except.ok.injEq] at hstep
          subst hstep
          intro m hm
          rcases List.mem_append.mp hm with hmm | hmm
          · exact hacc m hmm
          · rw [List.mem_singleton.mp hmm]
            exact geminiMapRole_mem (jget mkvs "type") role hrole
  | null => simp [geminiMsgStep] at hstep
  | bool b => simp [geminiMsgStep] at hstep
  | num n => simp [geminiMsgStep] at hstep
  | str s => simp [geminiMsgStep] at hstep
  | arr xs => simp [geminiMsgStep] at hstep

theorem geminiParse_roles (env : PyEnv) (fs : FS) (p : PyPath) (machine : String)
    (off : Nat) (ms : List CanonicalMessage) (o : Nat)
    (h : geminiParse env fs p machine off = .ok (ms, o)) :
    ∀ m ∈ ms, m.role ∈ canonicalRoles := by
  cases hfs : fs p with
  | none =>
    simp only [geminiParse, hfs, Except.ok.injEq, Prod.mk.injEq] at h
    rw [← h.1]
    intro m hm
    cases hm
  | some node =>
    simp only [geminiParse, hfs] at h
    cases hdec : env.jsonDecode node.bytes with
    | none =>
      rw [hdec] at h
      simp only [Except.ok.injEq, Prod.mk.injEq] at h
      rw [← h.1]
      intro m hm
      cases hm
    | some data =>
      rw [hdec] at h
      cases data with
      | obj kvs =>
        dsimp only at h
        simp only [Except.bind, bind] at h
        cases hsid : geminiSessionId kvs p with
        | error e => rw [hsid] at h; simp [Except.bind] at h
        | ok sid =>
          rw [hsid] at h
          simp only [Except.bind] at h
          cases hit : pyIter (jgetD kvs "messages" (.arr [])) with
          | error e => rw [hit] at h; simp [Except.bind] at h
          | ok elems =>
            rw [hit] at h
            simp only [Except.bind] at h
            cases hfold : elems.foldlM
                (geminiMsgStep env machine (geminiProjectFromPath p) sid p.pathStr) [] with
            | error e => rw [hfold] at h; simp [Except.bind] at h
            | ok msgs =>
              rw [hfold] at h
              simp only [Except.bind, pure, Except.pure, Except.ok.injEq, Prod.mk.injEq] at h
              rw [← h.1]
              exact foldlM_ok_preserve (fun m => m.role ∈ canonicalRoles) _
                (fun a x r hs ha =>
                  geminiMsgStep_preserve env machine (geminiProjectFromPath p) sid p.pathStr
                    a x r hs ha)
                elems [] msgs hfold (by simp)
      | null => simp at h
      | bool b => simp at h
      | num n => simp at h
      | str s => simp at h
      | arr xs => simp at h


/-- C4 (amended): every message produced by the Codex, Antigravity and
Gemini parsers carries a role from the closed set {user, assistant, system,
tool}; and a record whose role does not map into this set is skipped, never
defaulted: an unmapped truthy Codex `role` makes `_extract_response_item_message`
return no message, an Antigravity record whose role/type/author value
normalizes to `None` is dropped by `_extract_message`, and a Gemini record
whose `type` is unmapped contributes nothing to the message loop.  (The
Claude Code parser is excluded: it copies `message.role` through verbatim —
see the counterexample.) -/
theorem mapped_parsers_closed_roles (env : PyEnv) (fs : FS) (p : PyPath) (machine : String)
    (off : Nat) (ms : List CanonicalMessage) (o : Nat) :
    (codexParse env fs p machine off = .ok (ms, o) → ∀ m ∈ ms, m.role ∈ canonicalRoles)
  ∧ (antigravityParse env fs p machine off = .ok (ms, o) →
      ∀ m ∈ ms, m.role ∈ canonicalRoles)
  ∧ (geminiParse env fs p machine off = .ok (ms, o) → ∀ m ∈ ms, m.role ∈ canonicalRoles)
  ∧ (∀ (pkvs : List (String × Json)) (ts : Int) (project sess : String) (lineOff : Nat)
        (rv : Json), jget pkvs "role" = some rv → rv.truthy = true →
      codexMapRole rv = .ok none →
      codexResponseItem pkvs ts machine project sess p.pathStr lineOff = .ok none)
  ∧ (∀ (mkvs : List (String × Json)) (cid project : String),
      agNormalizeRole (pyOr (jgetD mkvs "role" .null)
          (pyOr (jgetD mkvs "type" .null) (jgetD mkvs "author" .null))) = .ok none →
      agExtractMessage env (.obj mkvs) cid machine project p.pathStr = .ok none)
  ∧ (∀ (mkvs : List (String × Json)) (project sid : String) (acc : List CanonicalMessage),
      geminiMapRole (jget mkvs "type") = none →
      geminiMsgStep env machine project sid p.pathStr acc (.obj mkvs) = .ok acc) := by
  refine ⟨?_, ?_, ?_, ?_, ?_, ?_⟩
  · intro h
    cases hfs : fs p with
    | none => simp [codexParse, hfs] at h
    | some node =>
      simp only [codexParse, hfs, Except.bind, bind] at h
      cases hgo : codexGo env machine p.pathStr "" (codexExtractSessionId p.stem) off
          (splitLines (node.bytes.drop off)) with
      | error e => rw [hgo] at h; simp [Except.bind] at h
      | ok msgs1 =>
        rw [hgo] at h
        simp only [Except.bind, pure, Except.pure, Except.ok.injEq, Prod.mk.injEq] at h
        rw [← h.1]
        exact codexGo_roles env machine p.pathStr _ "" (codexExtractSessionId p.stem) off
          msgs1 hgo
  · intro h
    cases hfs : fs p with
    | none =>
      simp only [antigravityParse, hfs, Except.ok.injEq, Prod.mk.injEq] at h
      rw [← h.1]
      intro m hm
      cases hm
    | some node =>
      simp only [antigravityParse, hfs] at h
      cases hdec : env.jsonDecode node.bytes with
      | none =>
        rw [hdec] at h
        simp only [Except.ok.injEq, Prod.mk.injEq] at h
        rw [← h.1]
        intro m hm
        cases hm
      | some data =>
        rw [hdec] at h
        simp only [Except.bind, bind] at h
        by_cases hc : agIsConversationFile data = true
        · rw [if_pos hc] at h
          cases data with
          | obj kvs =>
            dsimp only at h
            cases hb : agParseConversation env kvs p machine with
            | error e => rw [hb] at h; simp [Except.bind] at h
            | ok msgs1 =>
              rw [hb] at h
              simp only [Except.bind, pure, Except.pure, Except.ok.injEq, Prod.mk.injEq] at h
              rw [← h.1]
              exact agParseConversation_roles env kvs p machine msgs1 hb
          | null => simp [agIsConversationFile] at hc
          | bool b => simp [agIsConversationFile] at hc
          | num n => simp [agIsConversationFile] at hc
          | str s => simp [agIsConversationFile] at hc
          | arr xs => simp [agIsConversationFile] at hc
        · rw [if_neg hc] at h
          by_cases hbr : agIsBrainSession data = true
          · rw [if_pos hbr] at h
            cases data with
            | obj kvs =>
              dsimp only at h
              cases hb : agParseBrainSession env kvs p machine with
              | error e => rw [hb] at h; simp [Except.bind] at h
              | ok msgs1 =>
                rw [hb] at h
                simp only [Except.bind, pure, Except.pure, Except.ok.injEq, Prod.mk.injEq] at h
                rw [← h.1]
                exact agParseBrainSession_roles env kvs p machine msgs1 hb
            | null => simp [agIsBrainSession] at hbr
            | bool b => simp [agIsBrainSession] at hbr
            | num n => simp [agIsBrainSession] at hbr
            | str s => simp [agIsBrainSession] at hbr
            | arr xs => simp [agIsBrainSession] at hbr
          · rw [if_neg hbr] at h
            cases hb : agParseGeneric env data p machine with
            | error e => rw [hb] at h; simp [Except.bind] at h
            | ok msgs1 =>
              rw [hb] at h
              simp only [Except.bind, pure, Except.pure, Except.ok.injEq, Prod.mk.injEq] at h
              rw [← h.1]
              exact agParseGeneric_roles env data p machine msgs1 hb
  · intro h
    exact geminiParse_roles env fs p machine off ms o h
  · intro pkvs ts project sess lineOff rv hrole htr hmap
    simp [codexResponseItem, hrole, htr, hmap, Except.bind, bind, pure, Except.pure]
  · intro mkvs cid project hnorm
    simp [agExtractMessage, hnorm, Except.bind, bind, pure, Except.pure]
  · intro mkvs project sid acc hmap
    simp [geminiMsgStep, hmap, pure, Except.pure]

/-- Witness for C4 (amended): a concrete Codex `event_msg` record produces a
message whose role is in the closed set, and a concrete Gemini record of the
unmapped type `info` is skipped, contributing no message. -/
theorem mapped_parsers_closed_roles_witness :
    (CanonicalMessage.role
      ⟨"codex", "m", "", "s", 0, "user", "yo", "a/s.jsonl", none, some 0⟩) ∈ canonicalRoles
  ∧ geminiMsgStep ⟨fun l => if l == [1, 10] then
          .entry (.obj [("type", .str "event_msg"),
            ("payload", .obj [("type", .str "user_message"), ("message", .str "yo")])])
        else .badJson,
       fun _ => none, fun _ => none⟩ "m" "" "s" "a/s.jsonl" []
      (.obj [("type", .str "info")]) = .ok [] := by
  constructor
  · exact (mapped_parsers_closed_roles
        ⟨fun l => if l == [1, 10] then
            .entry (.obj [("type", .str "event_msg"),
              ("payload", .obj [("type", .str "user_message"), ("message", .str "yo")])])
          else .badJson,
         fun _ => none, fun _ => none⟩
        (fun _ => some ⟨[1, 10, 2, 2], 0⟩) ⟨["a", "s.jsonl"]⟩ "m" 0
        [⟨"codex", "m", "", "s", 0, "user", "yo", "a/s.jsonl", none, some 0⟩] 4).1
      (by decide) _ (List.mem_singleton.mpr rfl)
  · exact (mapped_parsers_closed_roles
        ⟨fun l => if l == [1, 10] then
            .entry (.obj [("type", .str "event_msg"),
              ("payload", .obj [("type", .str "user_message"), ("message", .str "yo")])])
          else .badJson,
         fun _ => none, fun _ => none⟩
        (fun _ => some ⟨[1, 10, 2, 2], 0⟩) ⟨["a", "s.jsonl"]⟩ "m" 0
        [⟨"codex", "m", "", "s", 0, "user", "yo", "a/s.jsonl", none, some 0⟩] 4).2.2.2.2.2
      [("type", .str "info")] "" "s" [] (by decide)

/-- Counterexample for C4 as stated: the Claude Code parser emits the record's
raw `message.role` — here `"human"`, outside the closed set — instead of
mapping or skipping it. -/
theorem claude_role_passthrough_cex :
    (claudeCodeParse
        ⟨fun l => if l == [1] then
            .entry (.obj [("type", .str "user"),
              ("message", .obj [("role", .str "human"), ("content", .str "hi")])])
          else .blank,
         fun _ => none, fun _ => none⟩
        (fun _ => some ⟨[1], 0⟩) ⟨["a", "s.jsonl"]⟩ "m" 0).map (fun r => r.1.map (·.role))
      = .ok ["human"]
  ∧ "human" ∉ canonicalRoles := by
  constructor
  · decide
  · decide


/-! ### C9: antigravity dispatch order and the generic scan -/

theorem agMsgStep_shift (env : PyEnv) (cid machine project pathS : String)
    (acc : List CanonicalMessage) (md : Json) :
    agMsgStep env cid machine project pathS acc md
      = (agMsgStep env cid machine project pathS [] md).map (fun r => acc ++ r) := by
  simp only [agMsgStep, Except.bind, bind]
  cases agExtractMessage env md cid machine project pathS with
  | error e => rfl
  | ok m? =>
    cases m? with
    | none => simp [Except.bind, Except.map, pure, Except.pure]
    | some m => simp [Except.bind, Except.map, pure, Except.pure]

theorem foldlM_shift {α β : Type} (f : List α → β → Except PyExc (List α))
    (hf : ∀ acc x, f acc x = (f [] x).map (fun r => acc ++ r)) :
    ∀ (l : List β) (acc : List α),
      List.foldlM f acc l = (List.foldlM f [] l).map (fun r => acc ++ r) := by
  intro l
  induction l with
  | nil =>
    intro acc
    simp [List.foldlM_nil, pure, Except.pure, Except.map]
  | cons x xs ih =>
    intro acc
    simp only [List.foldlM_cons]
    rw [hf acc x]
    cases hx : f [] x with
    | error e => rfl
    | ok d =>
      show List.foldlM f (acc ++ d) xs = (List.foldlM f d xs).map (fun r => acc ++ r)
      rw [ih (acc ++ d), ih d]
      cases List.foldlM f [] xs with
      | error e => rfl
      | ok r => simp [Except.map, List.append_assoc]

theorem agGenStep_shift (env : PyEnv) (sid machine project pathS : String)
    (acc : List CanonicalMessage) (kv : String × Json) :
    agGenStep env sid machine project pathS acc kv
      = (agGenStep env sid machine project pathS [] kv).map (fun r => acc ++ r) := by
  obtain ⟨key, v⟩ := kv
  cases v with
  | arr elems =>
    cases elems with
    | nil => simp [agGenStep, pure, Except.pure, Except.map]
    | cons v0 vrest =>
      cases v0 with
      | obj fkvs =>
        simp only [agGenStep]
        by_cases hl : agLooksLikeMessage fkvs = true
        · rw [if_pos hl, if_pos hl]
          exact foldlM_shift _ (fun a x => agMsgStep_shift env sid machine project pathS a x)
            _ acc
        · rw [if_neg hl, if_neg hl]
          simp [pure, Except.pure, Except.map]
      | null => simp [agGenStep, pure, Except.pure, Except.map]
      | bool b => simp [agGenStep, pure, Except.pure, Except.map]
      | num n => simp [agGenStep, pure, Except.pure, Except.map]
      | str s => simp [agGenStep, pure, Except.pure, Except.map]
      | arr l2 => simp [agGenStep, pure, Except.pure, Except.map]
  | null => simp [agGenStep, pure, Except.pure, Except.map]
  | bool b => simp [agGenStep, pure, Except.pure, Except.map]
  | num n => simp [agGenStep, pure, Except.pure, Except.map]
  | str s => simp [agGenStep, pure, Except.pure, Except.map]
  | obj kvs2 => simp [agGenStep, pure, Except.pure, Except.map]

/-- C9 (amended): the antigravity parser dispatches in order: the
conversation shape is checked first, the brain-session shape second, and
only then does the generic scan run.  The generic dict scan, however, has
no break: it visits EVERY top-level key, a non-empty array value whose
first element is a message-shaped dict contributes the messages extracted
from all its elements, every other value contributes nothing, and the
results of scanning two halves of the object concatenate — so every
qualifying array contributes its messages, not only the first. -/
theorem antigravity_dispatch_and_scan (env : PyEnv) (fs : FS) (p : PyPath)
    (machine : String) (off : Nat) (node : FileNode) (data : Json)
    (kvs1 kvs2 : List (String × Json)) (acc ms1 ms2 : List CanonicalMessage)
    (key : String) (v0 : Json) (vrest : List Json) (fkvs : List (String × Json)) :
    (fs p = some node → env.jsonDecode node.bytes = some data →
      ((agIsConversationFile data = true → ∀ kvs0, data = .obj kvs0 →
          antigravityParse env fs p machine off
            = (agParseConversation env kvs0 p machine).map
                (fun ms => (ms, node.bytes.length)))
       ∧ (agIsConversationFile data = false → agIsBrainSession data = true →
          ∀ kvs0, data = .obj kvs0 →
          antigravityParse env fs p machine off
            = (agParseBrainSession env kvs0 p machine).map
                (fun ms => (ms, node.bytes.length)))
       ∧ (agIsConversationFile data = false → agIsBrainSession data = false →
          antigravityParse env fs p machine off
            = (agParseGeneric env data p machine).map
                (fun ms => (ms, node.bytes.length)))))
  ∧ (v0 = .obj fkvs → agLooksLikeMessage fkvs = true →
      agGenStep env p.stem machine (agProjectFromPath p) p.pathStr acc (key, .arr (v0 :: vrest))
        = (v0 :: vrest).foldlM (agMsgStep env p.stem machine (agProjectFromPath p) p.pathStr)
            acc)
  ∧ ((∀ gkvs, v0 = .obj gkvs → agLooksLikeMessage gkvs = false) →
      agGenStep env p.stem machine (agProjectFromPath p) p.pathStr acc (key, .arr (v0 :: vrest))
        = .ok acc)
  ∧ (∀ key2 v2, (∀ w0 wrest, v2 ≠ .arr (w0 :: wrest)) →
      agGenStep env p.stem machine (agProjectFromPath p) p.pathStr acc (key2, v2) = .ok acc)
  ∧ (agParseGeneric env (.obj kvs1) p machine = .ok ms1 →
     agParseGeneric env (.obj kvs2) p machine = .ok ms2 →
     agParseGeneric env (.obj (kvs1 ++ kvs2)) p machine = .ok (ms1 ++ ms2)) := by
  refine ⟨?_, ?_, ?_, ?_, ?_⟩
  · intro hfs hdec
    refine ⟨?_, ?_, ?_⟩
    · intro hc kvs0 hdata
      subst hdata
      simp only [antigravityParse]
      rw [hfs]
      dsimp only
      rw [hdec]
      dsimp only
      rw [if_pos hc]
      cases agParseConversation env kvs0 p machine <;> rfl
    · intro hc hb kvs0 hdata
      subst hdata
      simp only [antigravityParse]
      rw [hfs]
      dsimp only
      rw [hdec]
      dsimp only
      rw [if_neg (by simp [hc]), if_pos hb]
      cases agParseBrainSession env kvs0 p machine <;> rfl
    · intro hc hb
      simp only [antigravityParse]
      rw [hfs]
      dsimp only
      rw [hdec]
      dsimp only
      rw [if_neg (by simp [hc]), if_neg (by simp [hb])]
      cases agParseGeneric env data p machine <;> rfl
  · intro h0 hl
    subst h0
    simp only [agGenStep]
    rw [if_pos hl]
  · intro hno
    cases v0 with
    | obj g =>
      simp only [agGenStep]
      rw [if_neg]
      · rfl
      · simp [hno g rfl]
    | null => rfl
    | bool b => rfl
    | num n => rfl
    | str s => rfl
    | arr l2 => rfl
  · intro key2 v2 hnot
    cases v2 with
    | arr l2 =>
      cases l2 with
      | nil => rfl
      | cons w0 wrest => exact absurd rfl (hnot w0 wrest)
    | null => rfl
    | bool b => rfl
    | num n => rfl
    | str s => rfl
    | obj o => rfl
  · intro h1 h2
    simp only [agParseGeneric] at h1 h2 ⊢
    rw [List.foldlM_append, h1]
    show List.foldlM (agGenStep env p.stem machine (agProjectFromPath p) p.pathStr) ms1 kvs2
        = Except.ok (ms1 ++ ms2)
    rw [foldlM_shift _
      (fun a kv => agGenStep_shift env p.stem machine (agProjectFromPath p) p.pathStr a kv)
      kvs2 ms1, h2]
    rfl

/-- Witness for C9 (amended): two one-key halves of a generic object, each a
message-shaped array, scan to one message each, and the combined object
scans to both messages concatenated. -/
theorem antigravity_dispatch_and_scan_witness :
    agParseGeneric ⟨fun _ => .blank, fun _ => none, fun _ => none⟩
      (.obj ([("a", .arr [.obj [("role", .str "user"), ("content", .str "one")]])]
        ++ [("b", .arr [.obj [("role", .str "user"), ("content", .str "two")]])]))
      ⟨["x.json"]⟩ "m"
    = .ok ([⟨"antigravity", "m", "", "x", 0, "user", "one", "x.json", none, none⟩]
        ++ [⟨"antigravity", "m", "", "x", 0, "user", "two", "x.json", none, none⟩]) := by
  exact (antigravity_dispatch_and_scan ⟨fun _ => .blank, fun _ => none, fun _ => none⟩
      (fun _ => none) ⟨["x.json"]⟩ "m" 0 ⟨[], 0⟩ .null
      [("a", .arr [.obj [("role", .str "user"), ("content", .str "one")]])]
      [("b", .arr [.obj [("role", .str "user"), ("content", .str "two")]])]
      [] [⟨"antigravity", "m", "", "x", 0, "user", "one", "x.json", none, none⟩]
      [⟨"antigravity", "m", "", "x", 0, "user", "two", "x.json", none, none⟩]
      "k" .null [] []).2.2.2.2 (by decide) (by decide)

/-- Counterexample for C9 as stated: a generic object with TWO top-level
arrays whose first elements are message-shaped yields the messages of both
arrays, not only those of the first array — the scan in `_parse_generic`
has no break, so it does not treat the first qualifying array alone as the
message list. -/
theorem antigravity_generic_second_array_cex :
    (agParseGeneric ⟨fun _ => .blank, fun _ => none, fun _ => none⟩
        (.obj [("first", .arr [.obj [("role", .str "user"), ("content", .str "one")]]),
               ("second", .arr [.obj [("role", .str "user"), ("content", .str "two")]])])
        ⟨["y.json"]⟩ "m").map (fun ms => ms.map (fun m => m.content))
      = .ok ["one", "two"] := by
  decide



/-! ### C7: incremental copy of append-only files -/

theorem get_file_state_sync_update (t : List FilesRow) (source path : String)
    (mv sv : Int) (hv : String) (off ls : Int) :
    ∃ st : FileState,
      get_file_state (update_file_state t source path
          ⟨some (some mv), some (some sv), some (some hv), some (some off), some (some ls)⟩)
        source path = some st
      ∧ st.last_offset = off := by
  cases hf : findRow t source path with
  | none =>
    have h2 := findRow_update_insert t source path
      ⟨some (some mv), some (some sv), some (some hv), some (some off), some (some ls)⟩ hf
    refine ⟨⟨source, path, some mv, some sv, some hv, off, some ls⟩, ?_, rfl⟩
    unfold get_file_state
    rw [h2]
    rfl
  | some r =>
    have h2 := findRow_update_existing t source path
      ⟨some (some mv), some (some sv), some (some hv), some (some off), some (some ls)⟩ r hf
    refine ⟨⟨r.source, r.path, some mv, some sv, some hv, off, some ls⟩, ?_, rfl⟩
    unfold get_file_state
    rw [h2]
    rfl

theorem sync_file_new_bytes_eq (fs : FS) (dfs : DestFS) (source : String) (p : PyPath)
    (t : List FilesRow) (machine : String) (outbox home : PyPath) (now : Int)
    (node : FileNode) (st : FileState)
    (hfs : fs p = some node) (hj : is_jsonl_path p = true)
    (hst : get_file_state t source p.pathStr = some st)
    (hlt : st.last_offset < (node.bytes.length : Int)) :
    sync_file fs dfs source p t machine outbox home now
      = ((fun q => if q = map_source_to_outbox source p machine outbox home
            then some ((dfs (map_source_to_outbox source p machine outbox home)).getD []
                ++ node.bytes.drop st.last_offset.toNat)
            else dfs q),
         update_file_state t source p.pathStr
           ⟨some (some node.mtime), some (some (node.bytes.length : Int)),
            some (some (sha256hexBytes node.bytes)), some (some (node.bytes.length : Int)),
            some (some now)⟩,
         true) := by
  have hns : needs_sync fs p (some st) = (true, "new_bytes", sha256hexBytes node.bytes) := by
    simp [needs_sync, hfs, hj, hlt]
  have hnle : ¬((node.bytes.length : Int) ≤ st.last_offset) := by omega
  have hrs : ("new_bytes" == "file_reset" || "new_bytes" == "content_changed"
      || "new_bytes" == "new_file") = false := by decide
  simp only [sync_file, hst, hns, hfs, hj, hrs, Option.map_some', Option.getD_some,
    Bool.not_true, Bool.false_eq_true, if_false, eq_self_iff_true, if_true,
    copy_jsonl_incremental]
  rw [if_neg hnle]

theorem sync_file_reset_eq (fs : FS) (dfs : DestFS) (source : String) (p : PyPath)
    (t : List FilesRow) (machine : String) (outbox home : PyPath) (now : Int)
    (node : FileNode) (reason : String)
    (hfs : fs p = some node) (hj : is_jsonl_path p = true)
    (hns : needs_sync fs p (get_file_state t source p.pathStr)
        = (true, reason, sha256hexBytes node.bytes))
    (hr : (reason == "file_reset" || reason == "content_changed" || reason == "new_file")
        = true) :
    sync_file fs dfs source p t machine outbox home now
      = ((fun q => if q = map_source_to_outbox source p machine outbox home
            then (if node.bytes = [] then none else some node.bytes) else dfs q),
         update_file_state t source p.pathStr
           ⟨some (some node.mtime), some (some (node.bytes.length : Int)),
            some (some (sha256hexBytes node.bytes)), some (some (node.bytes.length : Int)),
            some (some now)⟩,
         true) := by
  simp only [sync_file, hns, hfs, hj, Bool.not_true, Bool.false_eq_true, if_false,
    eq_self_iff_true, if_true, copy_jsonl_incremental]
  rw [if_pos hr]
  dsimp only
  by_cases hemp : node.bytes = []
  · rw [if_pos (by simp [hemp] : ((node.bytes.length : Int) ≤ (0 : Int)))]
    refine Prod.ext ?_ (Prod.ext ?_ rfl)
    · funext q
      by_cases hq : q = map_source_to_outbox source p machine outbox home
      · simp [hq, hemp]
      · simp [hq]
    · simp [hemp]
  · have hpos : ¬((node.bytes.length : Int) ≤ (0 : Int)) := by
      have := List.length_pos.mpr hemp
      omega
    rw [if_neg hpos]
    refine Prod.ext ?_ (Prod.ext ?_ rfl)
    · funext q
      by_cases hq : q = map_source_to_outbox source p machine outbox home
      · simp [hq, hemp]
      · simp [hq]
    · rfl

theorem runStep_new_bytes (source : String) (p : PyPath) (machine : String)
    (outbox home : PyPath) (mt now : Int) (hj : is_jsonl_path p = true)
    (src a : List Nat) (t : List FilesRow) (st : FileState) (ha : a ≠ [])
    (hst : get_file_state t source p.pathStr = some st)
    (hoff : st.last_offset = (src.length : Int)) :
    sync_file (fun q => if q = p then some ⟨src ++ a, mt⟩ else none)
        (fun q => if q = map_source_to_outbox source p machine outbox home
          then some src else none)
        source p t machine outbox home now
      = ((fun q => if q = map_source_to_outbox source p machine outbox home
            then some (src ++ a) else none),
         update_file_state t source p.pathStr
           ⟨some (some mt), some (some ((src ++ a).length : Int)),
            some (some (sha256hexBytes (src ++ a))), some (some ((src ++ a).length : Int)),
            some (some now)⟩,
         true) := by
  have hlt : st.last_offset < (((src ++ a).length : Nat) : Int) := by
    have h1 : (src ++ a).length = src.length + a.length := List.length_append src a
    have h2 : 0 < a.length := List.length_pos.mpr ha
    rw [hoff]
    omega
  rw [sync_file_new_bytes_eq _ _ source p t machine outbox home now ⟨src ++ a, mt⟩ st
    (by simp) hj hst hlt]
  refine Prod.ext ?_ (Prod.ext ?_ rfl)
  · funext q
    by_cases hq : q = map_source_to_outbox source p machine outbox home
    · simp [hq, hoff, List.drop_left]
    · simp [hq]
  · rfl

theorem runStep_first (source : String) (p : PyPath) (machine : String)
    (outbox home : PyPath) (mt now : Int) (hj : is_jsonl_path p = true)
    (a0 : List Nat) (ha0 : a0 ≠ []) :
    sync_file (fun q => if q = p then some ⟨a0, mt⟩ else none) (fun _ => none)
        source p [] machine outbox home now
      = ((fun q => if q = map_source_to_outbox source p machine outbox home
            then some a0 else none),
         update_file_state [] source p.pathStr
           ⟨some (some mt), some (some (a0.length : Int)), some (some (sha256hexBytes a0)),
            some (some (a0.length : Int)), some (some now)⟩,
         true) := by
  have hns1 : needs_sync (fun q => if q = p then some (⟨a0, mt⟩ : FileNode) else none) p
      (get_file_state [] source p.pathStr) = (true, "new_file", sha256hexBytes a0) := by
    simp [needs_sync, get_file_state, findRow]
  rw [sync_file_reset_eq (fun q => if q = p then some ⟨a0, mt⟩ else none) (fun _ => none)
    source p [] machine outbox home now ⟨a0, mt⟩ "new_file" (by simp) hj hns1 (by decide)]
  refine Prod.ext ?_ (Prod.ext ?_ rfl)
  · funext q
    by_cases hq : q = map_source_to_outbox source p machine outbox home
    · simp [hq, ha0]
    · simp [hq]
  · rfl

theorem runAppendsGo_spec (source : String) (p : PyPath) (machine : String)
    (outbox home : PyPath) (mt now : Int) (hj : is_jsonl_path p = true) :
    ∀ (appends : List (List Nat)), (∀ a ∈ appends, a ≠ []) →
    ∀ (src : List Nat) (t : List FilesRow) (st : FileState), src ≠ [] →
    get_file_state t source p.pathStr = some st →
    st.last_offset = (src.length : Int) →
    (runAppendsGo source p machine outbox home mt now src
        (fun q => if q = map_source_to_outbox source p machine outbox home
          then some src else none) t appends).1 = src ++ appends.flatten
    ∧ (runAppendsGo source p machine outbox home mt now src
        (fun q => if q = map_source_to_outbox source p machine outbox home
          then some src else none) t appends).2.1
        = (fun q => if q = map_source_to_outbox source p machine outbox home
            then some (src ++ appends.flatten) else none)
    ∧ (runAppendsGo source p machine outbox home mt now src
        (fun q => if q = map_source_to_outbox source p machine outbox home
          then some src else none) t appends).2.2.2 = cumOffsets src.length appends
    ∧ ∃ st2, get_file_state (runAppendsGo source p machine outbox home mt now src
          (fun q => if q = map_source_to_outbox source p machine outbox home
            then some src else none) t appends).2.2.1 source p.pathStr = some st2
        ∧ st2.last_offset = ((src ++ appends.flatten).length : Int) := by
  intro appends
  induction appends with
  | nil =>
    intro _ src t st hsrc hst hoff
    refine ⟨by simp [runAppendsGo], by simp [runAppendsGo],
      by simp [runAppendsGo, cumOffsets], ?_⟩
    refine ⟨st, by simpa [runAppendsGo] using hst, ?_⟩
    simpa using hoff
  | cons a rest ih =>
    intro hall src t st hsrc hst hoff
    have ha : a ≠ [] := hall a (List.mem_cons_self a rest)
    have hrest : ∀ x ∈ rest, x ≠ [] := fun x hx => hall x (List.mem_cons_of_mem a hx)
    have hstep := runStep_new_bytes source p machine outbox home mt now hj src a t st ha
      hst hoff
    obtain ⟨st2, hst2, hoff2⟩ := get_file_state_sync_update t source p.pathStr mt
      ((src ++ a).length : Int) (sha256hexBytes (src ++ a)) ((src ++ a).length : Int) now
    obtain ⟨ih1, ih2, ih3, ih4⟩ := ih hrest (src ++ a)
      (update_file_state t source p.pathStr
        ⟨some (some mt), some (some ((src ++ a).length : Int)),
         some (some (sha256hexBytes (src ++ a))), some (some ((src ++ a).length : Int)),
         some (some now)⟩)
      st2 (by simp [ha]) hst2 hoff2
    simp only [runAppendsGo, hstep]
    refine ⟨?_, ?_, ?_, ?_⟩
    · rw [ih1]
      simp [List.append_assoc]
    · rw [ih2]
      simp [List.append_assoc]
    · rw [hst2]
      simp only [Option.map_some', Option.getD_some]
      rw [hoff2, ih3]
      simp [cumOffsets, List.length_append]
    · obtain ⟨st3, h3a, h3b⟩ := ih4
      refine ⟨st3, h3a, ?_⟩
      rw [h3b]
      simp [List.append_assoc]

/-- C7: for `.jsonl` (append-only) files, `sync_file` discards any existing
destination artifact and restarts the copy from offset 0 when the sync
reason is `new_file`, `file_reset` or `content_changed`; on `new_bytes` it
appends exactly the byte range from the recorded `last_offset` to the end
of the source; in both cases the recorded new offset is the post-copy
source size; and across any sequence of non-empty appends to the source,
the destination holds the exact concatenation of the appended bytes, with
the recorded offsets equal to the cumulative byte counts at each step. -/
theorem incremental_copy_append_only (fs : FS) (dfs : DestFS) (source : String)
    (p : PyPath) (t : List FilesRow) (machine : String) (outbox home : PyPath)
    (now mt : Int) (node : FileNode) (st : FileState) (reason : String)
    (appends : List (List Nat)) :
    (fs p = some node → is_jsonl_path p = true →
      needs_sync fs p (get_file_state t source p.pathStr)
        = (true, reason, sha256hexBytes node.bytes) →
      (reason == "file_reset" || reason == "content_changed" || reason == "new_file")
        = true →
      (sync_file fs dfs source p t machine outbox home now).1
          = (fun q => if q = map_source_to_outbox source p machine outbox home
              then (if node.bytes = [] then none else some node.bytes) else dfs q)
        ∧ ((get_file_state (sync_file fs dfs source p t machine outbox home now).2.1
              source p.pathStr).map (·.last_offset)).getD 0 = (node.bytes.length : Int))
  ∧ (fs p = some node → is_jsonl_path p = true →
      get_file_state t source p.pathStr = some st →
      st.last_offset < (node.bytes.length : Int) →
      (sync_file fs dfs source p t machine outbox home now).1
          = (fun q => if q = map_source_to_outbox source p machine outbox home
              then some ((dfs (map_source_to_outbox source p machine outbox home)).getD []
                  ++ node.bytes.drop st.last_offset.toNat)
              else dfs q)
        ∧ ((get_file_state (sync_file fs dfs source p t machine outbox home now).2.1
              source p.pathStr).map (·.last_offset)).getD 0 = (node.bytes.length : Int))
  ∧ (is_jsonl_path p = true → (∀ a ∈ appends, a ≠ []) → appends ≠ [] →
      (runAppends source p machine outbox home mt now appends).2.1
          = (fun q => if q = map_source_to_outbox source p machine outbox home
              then some appends.flatten else none)
        ∧ (runAppends source p machine outbox home mt now appends).2.2.2
            = cumOffsets 0 appends) := by
  refine ⟨?_, ?_, ?_⟩
  · intro hfs hj hns hr
    rw [sync_file_reset_eq fs dfs source p t machine outbox home now node reason hfs hj
      hns hr]
    refine ⟨rfl, ?_⟩
    obtain ⟨st2, h2, h3⟩ := get_file_state_sync_update t source p.pathStr node.mtime
      (node.bytes.length : Int) (sha256hexBytes node.bytes) (node.bytes.length : Int) now
    dsimp only
    rw [h2]
    simp [h3]
  · intro hfs hj hst hlt
    rw [sync_file_new_bytes_eq fs dfs source p t machine outbox home now node st hfs hj
      hst hlt]
    refine ⟨rfl, ?_⟩
    obtain ⟨st2, h2, h3⟩ := get_file_state_sync_update t source p.pathStr node.mtime
      (node.bytes.length : Int) (sha256hexBytes node.bytes) (node.bytes.length : Int) now
    dsimp only
    rw [h2]
    simp [h3]
  · intro hj hall hne
    cases appends with
    | nil => exact absurd rfl hne
    | cons a0 rest =>
      have ha0 : a0 ≠ [] := hall a0 (List.mem_cons_self a0 rest)
      have hrest : ∀ x ∈ rest, x ≠ [] := fun x hx => hall x (List.mem_cons_of_mem a0 hx)
      have hfirst := runStep_first source p machine outbox home mt now hj a0 ha0
      obtain ⟨st1, hst1, hoff1⟩ := get_file_state_sync_update [] source p.pathStr mt
        (a0.length : Int) (sha256hexBytes a0) (a0.length : Int) now
      obtain ⟨s1, s2, s3, s4⟩ := runAppendsGo_spec source p machine outbox home mt now hj
        rest hrest a0
        (update_file_state [] source p.pathStr
          ⟨some (some mt), some (some (a0.length : Int)), some (some (sha256hexBytes a0)),
           some (some (a0.length : Int)), some (some now)⟩)
        st1 ha0 hst1 hoff1
      simp only [runAppends, runAppendsGo, List.nil_append, hfirst]
      refine ⟨?_, ?_⟩
      · rw [s2]
        simp
      · rw [hst1]
        simp only [Option.map_some', Option.getD_some]
        rw [hoff1, s3]
        simp [cumOffsets]

/-- Witness for C7: three sequential appends `[1,2]`, `[3]`, `[4,5,6]` to a
fresh `.jsonl` source reproduce the exact concatenation `[1,2,3,4,5,6]` in
the outbox destination, with recorded offsets `[2, 3, 6]`. -/
theorem incremental_copy_append_only_witness :
    ((runAppends "claude_code" ⟨["h", "a.jsonl"]⟩ "m" ⟨["out"]⟩ ⟨["h"]⟩ 5 9
        [[1, 2], [3], [4, 5, 6]]).2.1
      = (fun q => if q = map_source_to_outbox "claude_code" ⟨["h", "a.jsonl"]⟩ "m"
            ⟨["out"]⟩ ⟨["h"]⟩ then some ([[1, 2], [3], [4, 5, 6]] : List (List Nat)).flatten
          else none))
  ∧ (runAppends "claude_code" ⟨["h", "a.jsonl"]⟩ "m" ⟨["out"]⟩ ⟨["h"]⟩ 5 9
        [[1, 2], [3], [4, 5, 6]]).2.2.2 = cumOffsets 0 [[1, 2], [3], [4, 5, 6]]
  ∧ cumOffsets 0 [[1, 2], [3], [4, 5, 6]] = [2, 3, 6]
  ∧ ([[1, 2], [3], [4, 5, 6]] : List (List Nat)).flatten = [1, 2, 3, 4, 5, 6] := by
  obtain ⟨h1, h2⟩ := (incremental_copy_append_only (fun _ => none) (fun _ => none)
      "claude_code" ⟨["h", "a.jsonl"]⟩ [] "m" ⟨["out"]⟩ ⟨["h"]⟩ 9 5 ⟨[], 0⟩
      ⟨"", "", none, none, none, 0, none⟩ "" [[1, 2], [3], [4, 5, 6]]).2.2
    (by decide) (by decide) (by decide)
  exact ⟨h1, h2, by decide, by decide⟩

end SessionSiphon



















